import Mathlib

/-!
Verification of the module-graph core (server/moduleGraph.ts): the in-memory
module dependency graph and its cache-invalidation engine.  The `ModuleNode`
and `ModuleGraph` structures, the registry maps, `ensureEntryFromUrl`,
`updateModuleInfo`, `resolveUrl`, `createFileOnlyEntry` and the invalidation
walk are embedded as pure state-passing functions; asynchronous methods are
interpreted sequentially (the runtime is single-threaded and cooperative, so
one call runs between suspension points without interleaving), with the
pending-resolution cache holding settled results.  A rejected resolver call
is an `Except.error`; the pending cache records the rejection
(`Pending.failed`), mirroring the rejected promise the source leaves cached.
`resolveCount` instruments the number of invocations of the injected
resolver, and the invalidation walk additionally returns the list of nodes
it cleared, in visit order; neither changes the evolution of the graph.
-/

set_option maxHeartbeats 1000000

namespace ViteGraph

instance exceptDecEq {ε α : Type} [DecidableEq ε] [DecidableEq α] :
    DecidableEq (Except ε α) := fun a b =>
  match a, b with
  | Except.error e, Except.error f =>
    match decEq e f with
    | isTrue h => isTrue (h ▸ rfl)
    | isFalse h => isFalse fun hh => h (by cases hh; rfl)
  | Except.ok x, Except.ok y =>
    match decEq x y with
    | isTrue h => isTrue (h ▸ rfl)
    | isFalse h => isFalse fun hh => h (by cases hh; rfl)
  | Except.error _, Except.ok _ => isFalse fun hh => by cases hh
  | Except.ok _, Except.error _ => isFalse fun hh => by cases hh

/-! ### Association-list primitives (the registry's `Map`s) -/

def alookup {κ α : Type} [DecidableEq κ] : List (κ × α) → κ → Option α
  | [], _ => none
  | (k', v) :: rest, k => if k' = k then some v else alookup rest k

def aset {κ α : Type} [DecidableEq κ] : List (κ × α) → κ → α → List (κ × α)
  | [], k, v => [(k, v)]
  | (k', v') :: rest, k, v =>
    if k' = k then (k, v) :: rest else (k', v') :: aset rest k v

/-- Insertion-ordered set `add` (JS `Set.prototype.add`). -/
def osAdd (l : List Nat) (x : Nat) : List Nat := if x ∈ l then l else l ++ [x]

/-- JS `Set.prototype.delete` on a duplicate-free insertion-ordered list. -/
def osErase (l : List Nat) (x : Nat) : List Nat := l.filter (fun y => y != x)

/-- `new Set(array)`: de-duplicate keeping first occurrences. -/
def dedupKeep : List Nat → List Nat
  | [] => []
  | x :: rest => x :: (dedupKeep rest).filter (fun y => y != x)

/-! ### URL helpers.  These live in `utils.ts` / `constants.ts` /
`plugins/css.ts`, which are not part of the sources at hand; they are
modelled from the spec's description of the normalization steps. -/

/-- Modelled from the spec: `cleanUrl` (utils.ts, not under src/) strips the
query string and hash, i.e. everything from the first `?` or `#`. -/
def cleanUrl (url : String) : String :=
  String.mk (url.toList.takeWhile (fun ch => ch != '?' && ch != '#'))

/-- Split a char list at the first occurrence of `c`. -/
def breakAt (c : Char) : List Char → List Char × Option (List Char)
  | [] => ([], none)
  | x :: rest =>
    if x = c then ([], some rest)
    else
      let r := breakAt c rest
      (x :: r.1, r.2)

/-- Split a char list on every occurrence of `c` (like `String.splitOn`
with a one-character separator). -/
def splitOnChar (c : Char) : List Char → List (List Char)
  | [] => [[]]
  | x :: rest =>
    if x = c then [] :: splitOnChar c rest
    else
      match splitOnChar c rest with
      | [] => [[x]]
      | h :: t => (x :: h) :: t

def intercalateChar (c : Char) : List (List Char) → List Char
  | [] => []
  | [h] => h
  | h :: t => h ++ c :: intercalateChar c t

def isPrefixOfChars : List Char → List Char → Bool
  | [], _ => true
  | _ :: _, [] => false
  | a :: as, b :: bs => a == b && isPrefixOfChars as bs

def isSuffixOfChars (suf l : List Char) : Bool :=
  isPrefixOfChars suf.reverse l.reverse

/-- Drop one trailing `?` or `&` (the trailing-separator cleanup both
marker-stripping helpers end with). -/
def dropTrailingSep (s : String) : String :=
  match s.toList.reverse with
  | c :: rest => if c = '?' || c = '&' then String.mk rest.reverse else s
  | [] => s

/-- An HMR timestamp query parameter: `t=` followed by a 13-digit
millisecond timestamp. -/
def isTimestampParam : List Char → Bool
  | 't' :: '=' :: digits => digits.length == 13 && digits.all Char.isDigit
  | _ => false

def removeQueryParams (bad : List Char → Bool) (url : String) : String :=
  match breakAt '?' url.toList with
  | (_, none) => dropTrailingSep url
  | (path, some query) =>
    let params := splitOnChar '&' query
    let kept := params.filter (fun p => ! bad p)
    dropTrailingSep
      (String.mk (if kept.isEmpty then path else path ++ '?' :: intercalateChar '&' kept))

/-- Modelled from the spec: `removeTimestampQuery` (utils.ts, not under
src/) strips the HMR timestamp marker (`?t=xxxxxxxxxxxxx`) from the URL's
query string, dropping a dangling separator. -/
def removeTimestampQuery (url : String) : String :=
  removeQueryParams isTimestampParam url

/-- Modelled from the spec: `removeImportQuery` (utils.ts, not under src/)
strips the `?import` marker from the URL's query string, dropping a
dangling separator. -/
def removeImportQuery (url : String) : String :=
  removeQueryParams (fun p => p == "import".toList || p == "import=".toList) url

/-- The normalization `getModuleByUrl`, `_ensureEntryFromUrl` and
`resolveUrl` all apply on entry: strip the timestamp marker, then
the import marker. -/
def stripUrl (u : String) : String := removeImportQuery (removeTimestampQuery u)

def afterLastSlash (l : List Char) : List Char :=
  (l.reverse.takeWhile (fun ch => ch != '/')).reverse

def lastIdxOf (c : Char) : List Char → Option Nat
  | [] => none
  | x :: rest =>
    match lastIdxOf c rest with
    | some i => some (i + 1)
    | none => if x = c then some 0 else none

/-- Modelled from node's `path.extname` (standard library, not under src/):
the extension of the basename, empty for dot-less names, hidden files and
`..`. -/
def extname (p : String) : String :=
  let b := afterLastSlash p.toList
  match lastIdxOf '.' b with
  | none => ""
  | some i =>
    if i = 0 then ""
    else if b = ['.', '.'] then ""
    else String.mk (b.drop i)

/-- Modelled from the spec: `normalizePath` (utils.ts, not under src/)
converts backslashes and applies posix path normalization. -/
def normalizePath (p : String) : String :=
  let q := p.toList.map (fun c => if c = '\\' then '/' else c)
  let abs : Bool :=
    match q with
    | '/' :: _ => true
    | _ => false
  let segs := splitOnChar '/' q
  let step := fun (acc : List (List Char)) (s : List Char) =>
    if s.isEmpty || s == ['.'] then acc
    else if s == ['.', '.'] then
      match acc with
      | [] => if abs then [] else [['.', '.']]
      | a :: rest => if a == ['.', '.'] then s :: a :: rest else rest
    else s :: acc
  let core := intercalateChar '/' (segs.foldl step []).reverse
  if abs then String.mk ('/' :: core)
  else if core.isEmpty then "." else String.mk core

/-- Modelled from the spec: `FS_PREFIX` (constants.ts, not under src/), the
fs-root marker prepended to file-only entries' synthesized URLs. -/
def FS_PREFIX : String := "/@fs/"

def cssLangs : List String :=
  [".css", ".less", ".sass", ".scss", ".styl", ".stylus", ".pcss", ".postcss", ".sss"]

def queryParamsOf (url : String) : List (List Char) :=
  match breakAt '?' url.toList with
  | (_, none) => []
  | (_, some q) => splitOnChar '&' q

/-- Modelled from the spec: `isDirectCSSRequest` (plugins/css.ts, not under
src/) — a stylesheet extension combined with the `direct` query marker. -/
def isDirectCSSRequest (url : String) : Bool :=
  (cssLangs.any (fun e => isSuffixOfChars e.toList (cleanUrl url).toList)) &&
  (queryParamsOf url).any
    (fun p => p == "direct".toList || isPrefixOfChars "direct=".toList p)

/-! ### The data model -/

inductive ModuleType
  | js
  | css
deriving DecidableEq, Repr

/-- `ModuleNode`.  Opaque payloads (`info`, `meta`, transform results, the
evaluated ssr module and error) are identified by `Nat` tokens; node
references are keys (`Nat`) into the graph's node store, which models
JavaScript object identity.  JS `Set`s become duplicate-free
insertion-ordered lists. -/
structure ModuleNode where
  url : String
  id : Option String := none
  file : Option String := none
  type : ModuleType
  info : Option Nat := none
  meta : Option Nat := none
  importers : List Nat := []
  clientImportedModules : List Nat := []
  ssrImportedModules : List Nat := []
  acceptedHmrDeps : List Nat := []
  acceptedHmrExports : Option (List String) := none
  importedBindings : Option (List (String × List String)) := none
  isSelfAccepting : Option Bool := none
  transformResult : Option Nat := none
  ssrTransformResult : Option Nat := none
  ssrModule : Option Nat := none
  ssrError : Option Nat := none
  lastHMRTimestamp : Nat := 0
  lastInvalidationTimestamp : Nat := 0
deriving DecidableEq, Repr

/-- The `ModuleNode` constructor. -/
def ModuleNode.create (url : String) (setIsSelfAccepting : Bool) : ModuleNode :=
  { url := url
    type := if isDirectCSSRequest url then ModuleType.css else ModuleType.js
    isSelfAccepting := if setIsSelfAccepting then some false else none }

/-- The `importedModules` getter: union of client and ssr imports. -/
def ModuleNode.importedModules (n : ModuleNode) : List Nat :=
  n.ssrImportedModules.foldl osAdd n.clientImportedModules

/-- An entry of the pending-resolution (`_unresolvedUrlToModuleMap`) caches:
a settled module node or a cached rejection (a rejected promise stays in the
map in the source). -/
inductive Pending
  | node (key : Nat)
  | failed
deriving DecidableEq, Repr

structure PartialResolvedId where
  id : String
  meta : Option Nat := none
deriving DecidableEq, Repr

/-- `ModuleGraph`: the injected resolver plus the five registry maps, the
node store (object identity = key), a fresh-key counter and the
resolver-invocation instrumentation counter. -/
structure ModuleGraph where
  resolveId : String → Bool → Except Unit (Option PartialResolvedId)
  urlToModuleMap : List (String × Nat) := []
  idToModuleMap : List (String × Nat) := []
  fileToModulesMap : List (String × List Nat) := []
  safeModulesPath : List String := []
  _unresolvedUrlToModuleMap : List (String × Pending) := []
  _ssrUnresolvedUrlToModuleMap : List (String × Pending) := []
  nodes : List (Nat × ModuleNode) := []
  nextKey : Nat := 0
  resolveCount : Nat := 0

def findNode (g : ModuleGraph) (k : Nat) : Option ModuleNode := alookup g.nodes k

def setNode (g : ModuleGraph) (k : Nat) (v : ModuleNode) : ModuleGraph :=
  { g with nodes := aset g.nodes k v }

def updateNode (g : ModuleGraph) (k : Nat) (f : ModuleNode → ModuleNode) : ModuleGraph :=
  match alookup g.nodes k with
  | some v => setNode g k (f v)
  | none => g

def pendMap (g : ModuleGraph) (ssr : Bool) : List (String × Pending) :=
  if ssr then g._ssrUnresolvedUrlToModuleMap else g._unresolvedUrlToModuleMap

def ModuleGraph._getUnresolvedUrlToModule (g : ModuleGraph) (url : String) (ssr : Bool) :
    Option Pending :=
  alookup (pendMap g ssr) url

def ModuleGraph._setUnresolvedUrlToModule (g : ModuleGraph) (url : String) (e : Pending)
    (ssr : Bool) : ModuleGraph :=
  if ssr then
    { g with _ssrUnresolvedUrlToModuleMap := aset g._ssrUnresolvedUrlToModuleMap url e }
  else
    { g with _unresolvedUrlToModuleMap := aset g._unresolvedUrlToModuleMap url e }

/-! ### URL resolution -/

/-- `resolved?.id || url`: the resolved id, falling back to the url when the
resolver returned null (or a falsy empty id). -/
def resolveIdFallback (ro : Option PartialResolvedId) (url : String) : String :=
  match ro with
  | some r => if r.id = "" then url else r.id
  | none => url

def resolveIdMeta (ro : Option PartialResolvedId) : Option Nat :=
  match ro with
  | some r => r.meta
  | none => none

/-- The extension-reconciliation step of `_resolveUrl`: when the resolved id
differs from the url and the url is not a virtual module, splice the
resolved id's extension into the url before its query string. -/
def spliceExt (url : String) (resolvedId : String) : String :=
  if url != resolvedId && ! (url.toList.contains (Char.ofNat 0)) &&
      ! (isPrefixOfChars "virtual:".toList url.toList) then
    let ext := extname (cleanUrl resolvedId)
    if ext != "" then
      let pathname := cleanUrl url
      if ! (isSuffixOfChars ext.toList pathname.toList) then
        pathname ++ ext ++ String.mk (url.toList.drop pathname.toList.length)
      else url
    else url
  else url

/-- `_resolveUrl`.  When no pre-resolved id is supplied, the injected
resolver is invoked (counted by `resolveCount`); a rejection propagates. -/
def ModuleGraph._resolveUrl (g : ModuleGraph) (url : String) (ssr : Bool)
    (alreadyResolved : Option PartialResolvedId) :
    Except Unit (String × String × Option Nat) × ModuleGraph :=
  match alreadyResolved with
  | some r =>
    let rid := resolveIdFallback (some r) url
    (Except.ok (spliceExt url rid, rid, resolveIdMeta (some r)), g)
  | none =>
    let g1 := { g with resolveCount := g.resolveCount + 1 }
    match g.resolveId url ssr with
    | Except.error _ => (Except.error (), g1)
    | Except.ok ro =>
      let rid := resolveIdFallback ro url
      (Except.ok (spliceExt url rid, rid, resolveIdMeta ro), g1)

/-- Append a fresh node under the fresh-key counter (`new ModuleNode`
bound to a fresh object identity). -/
def pushNode (g : ModuleGraph) (node : ModuleNode) : ModuleGraph :=
  { g with nodes := aset g.nodes g.nextKey node, nextKey := g.nextKey + 1 }

def setUrlEntry (g : ModuleGraph) (u : String) (k : Nat) : ModuleGraph :=
  { g with urlToModuleMap := aset g.urlToModuleMap u k }

def setIdEntry (g : ModuleGraph) (i : String) (k : Nat) : ModuleGraph :=
  { g with idToModuleMap := aset g.idToModuleMap i k }

/-- Add `k` to the (possibly missing) file-index set for `file`. -/
def addFileEntry (g : ModuleGraph) (file : String) (k : Nat) : ModuleGraph :=
  { g with
    fileToModulesMap :=
      aset g.fileToModulesMap file (osAdd ((alookup g.fileToModulesMap file).getD []) k) }

/-- The registration step of `_ensureEntryFromUrl` after resolution
completes: look the resolved id up in the id index; on a miss create a node
and register it in the url, id and file indexes, on a hit register the url
alias if unseen; finally record the settled result under the raw URL in the
pending cache. -/
def registerResolved (g : ModuleGraph) (raw url resolvedId : String) (meta : Option Nat)
    (setIsSelfAccepting ssr : Bool) : Nat × ModuleGraph :=
  match alookup g.idToModuleMap resolvedId with
  | none =>
    let k := g.nextKey
    let node := { ModuleNode.create url setIsSelfAccepting with
      meta := meta, id := some resolvedId, file := some (cleanUrl resolvedId) }
    let g2 := addFileEntry (setIdEntry (setUrlEntry (pushNode g node) url k) resolvedId k)
      (cleanUrl resolvedId) k
    (k, g2._setUnresolvedUrlToModule raw (Pending.node k) ssr)
  | some k =>
    let g2 :=
      match alookup g.urlToModuleMap url with
      | none => setUrlEntry g url k
      | some _ => g
    (k, g2._setUnresolvedUrlToModule raw (Pending.node k) ssr)

/-- `_ensureEntryFromUrl`: normalize, consult the pending cache, otherwise
resolve and register (a rejection is recorded in the pending cache, the
rejected promise staying cached). -/
def ModuleGraph._ensureEntryFromUrl (g : ModuleGraph) (rawUrl : String) (ssr : Bool)
    (setIsSelfAccepting : Bool) (resolved : Option PartialResolvedId) :
    Except Unit Nat × ModuleGraph :=
  let raw := stripUrl rawUrl
  match g._getUnresolvedUrlToModule raw ssr with
  | some (Pending.node k) => (Except.ok k, g)
  | some Pending.failed => (Except.error (), g)
  | none =>
    match g._resolveUrl raw ssr resolved with
    | (Except.error _, g1) =>
      (Except.error (), g1._setUnresolvedUrlToModule raw Pending.failed ssr)
    | (Except.ok (url, resolvedId, meta), g1) =>
      let r := registerResolved g1 raw url resolvedId meta setIsSelfAccepting ssr
      (Except.ok r.1, r.2)

def ModuleGraph.ensureEntryFromUrl (g : ModuleGraph) (rawUrl : String) (ssr : Bool)
    (setIsSelfAccepting : Bool) : Except Unit Nat × ModuleGraph :=
  g._ensureEntryFromUrl rawUrl ssr setIsSelfAccepting none

/-! ### Lookups -/

def ModuleGraph.getModuleById (g : ModuleGraph) (id : String) : Option Nat :=
  alookup g.idToModuleMap (removeTimestampQuery id)

def ModuleGraph.getModulesByFile (g : ModuleGraph) (file : String) : Option (List Nat) :=
  alookup g.fileToModulesMap file

def ModuleGraph.getModuleByUrl (g : ModuleGraph) (rawUrl : String) (ssr : Bool) :
    Except Unit (Option Nat) × ModuleGraph :=
  let raw := stripUrl rawUrl
  match g._getUnresolvedUrlToModule raw ssr with
  | some (Pending.node k) => (Except.ok (some k), g)
  | some Pending.failed => (Except.error (), g)
  | none =>
    match g._resolveUrl raw ssr none with
    | (Except.error _, g1) => (Except.error (), g1)
    | (Except.ok (url, _, _), g1) => (Except.ok (alookup g1.urlToModuleMap url), g1)

/-- `resolveUrl`: strip markers, short-circuit through the pending cache
when it holds a node with a (truthy) id, otherwise resolve. -/
def ModuleGraph.resolveUrl (g : ModuleGraph) (url0 : String) (ssr : Bool) :
    Except Unit (String × String × Option Nat) × ModuleGraph :=
  let url := stripUrl url0
  match g._getUnresolvedUrlToModule url ssr with
  | some Pending.failed => (Except.error (), g)
  | some (Pending.node k) =>
    match findNode g k with
    | some v =>
      match v.id with
      | some i =>
        if i != "" then (Except.ok (v.url, i, v.meta), g) else g._resolveUrl url ssr none
      | none => g._resolveUrl url ssr none
    | none => g._resolveUrl url ssr none
  | none => g._resolveUrl url ssr none

/-! ### File-only entries -/

def findExistingFileEntry (g : ModuleGraph) (mods : List Nat) (url : String)
    (file : String) : Option Nat :=
  mods.find? (fun m =>
    match findNode g m with
    | some v => v.url == url || v.id == some file
    | none => false)

/-- `createFileOnlyEntry`: normalize the path, ensure the file index has a
set for it, return an existing node matched by the synthesized url or by
id, else create a node registered only in the file index. -/
def ModuleGraph.createFileOnlyEntry (g : ModuleGraph) (file0 : String) :
    Nat × ModuleGraph :=
  let file := normalizePath file0
  let mods := (alookup g.fileToModulesMap file).getD []
  let g1 :=
    if (alookup g.fileToModulesMap file).isSome then g
    else { g with fileToModulesMap := aset g.fileToModulesMap file [] }
  let url := FS_PREFIX ++ file
  match findExistingFileEntry g1 mods url file with
  | some m => (m, g1)
  | none =>
    let k := g1.nextKey
    let node := { ModuleNode.create url true with file := some file }
    (k, { g1 with
      nodes := aset g1.nodes k node
      nextKey := k + 1
      fileToModulesMap := aset g1.fileToModulesMap file (osAdd mods k) })

/-! ### Invalidation -/

/-- The per-node effect of `invalidateModule`: bump the appropriate
timestamp and clear the four cached artifacts; everything else (resolved
dependency metadata and edge bookkeeping) is deliberately untouched. -/
def ModuleNode.clearArtifacts (v : ModuleNode) (t : Nat) (isHmr : Bool) : ModuleNode :=
  { v with
    lastHMRTimestamp := if isHmr then t else v.lastHMRTimestamp
    lastInvalidationTimestamp := if isHmr then v.lastInvalidationTimestamp else t
    transformResult := none
    ssrTransformResult := none
    ssrModule := none
    ssrError := none }

/-- The importer loop of `invalidateModule`, abstracted over the recursive
invalidation `F` of the next level: importers that accept the invalidated
module (`modKey`) as an HMR dependency are skipped, the rest are invalidated
recursively with the shared seen set (and, as in the source, the default
empty `hmrBoundaries`). -/
def invalidateListGo
    (F : ModuleGraph → Nat → List Nat → Nat → Bool → List Nat →
      ModuleGraph × List Nat × List Nat)
    (modKey : Nat) : ModuleGraph → List Nat → List Nat → Nat → Bool →
      ModuleGraph × List Nat × List Nat
  | g, [], seen, _, _ => (g, seen, [])
  | g, imp :: rest, seen, timestamp, isHmr =>
    let accepts :=
      match findNode g imp with
      | some w => decide (modKey ∈ w.acceptedHmrDeps)
      | none => false
    if accepts then invalidateListGo F modKey g rest seen timestamp isHmr
    else
      let r := F g imp seen timestamp isHmr []
      let r2 := invalidateListGo F modKey r.1 rest r.2.1 timestamp isHmr
      (r2.1, r2.2.1, r.2.2 ++ r2.2.2)

/-- The recursive walk of `invalidateModule`, with explicit fuel (the source
recursion terminates because `seen` grows; the wrapper supplies sufficient
fuel).  Returns the graph, the `seen` set and the list of nodes cleared by
this call in visit order. -/
def invalidateF : Nat → ModuleGraph → Nat → List Nat → Nat → Bool → List Nat →
    ModuleGraph × List Nat × List Nat
  | 0, g, _, seen, _, _, _ => (g, seen, [])
  | Nat.succ fuel', g, modKey, seen, timestamp, isHmr, hmrBoundaries =>
    if modKey ∈ seen then (g, seen, [])
    else
      match findNode g modKey with
      | none => (g, seen, [])
      | some v =>
        let g1 := setNode g modKey (v.clearArtifacts timestamp isHmr)
        let seen1 := seen ++ [modKey]
        if modKey ∈ hmrBoundaries then (g1, seen1, [modKey])
        else
          let r := invalidateListGo (invalidateF fuel') modKey g1 v.importers seen1
            timestamp isHmr
          (r.1, r.2.1, modKey :: r.2.2)

/-- `invalidateModule`, with fuel sufficient for the walk. -/
def ModuleGraph.invalidateModule (g : ModuleGraph) (modKey : Nat) (seen : List Nat)
    (timestamp : Nat) (isHmr : Bool) (hmrBoundaries : List Nat) :
    ModuleGraph × List Nat × List Nat :=
  invalidateF (g.nodes.length + 1) g modKey seen timestamp isHmr hmrBoundaries

/-- Invalidate a list of roots sharing one `seen` set and one timestamp
(the bodies of `invalidateAll` and `onFileChange`); also returns the
accumulated visit list. -/
def invalidateSeq (g : ModuleGraph) (keys : List Nat) (seen : List Nat) (t : Nat) :
    ModuleGraph × List Nat × List Nat :=
  match keys with
  | [] => (g, seen, [])
  | k :: rest =>
    let r := g.invalidateModule k seen t false []
    let r2 := invalidateSeq r.1 rest r.2.1 t
    (r2.1, r2.2.1, r.2.2 ++ r2.2.2)

/-- `invalidateAll`: one timestamp, one shared seen set, every node of the
id index. -/
def ModuleGraph.invalidateAll (g : ModuleGraph) (t : Nat) :
    ModuleGraph × List Nat × List Nat :=
  invalidateSeq g (g.idToModuleMap.map Prod.snd) [] t

/-- `onFileChange` (`Date.now()` within the synchronous loop modelled as
one timestamp value). -/
def ModuleGraph.onFileChange (g : ModuleGraph) (file : String) (t : Nat) :
    ModuleGraph × List Nat × List Nat :=
  match g.getModulesByFile file with
  | some mods => invalidateSeq g mods [] t
  | none => (g, [], [])

/-! ### `updateModuleInfo` -/

/-- `dep.importers.add(mod)`. -/
def addImporter (g : ModuleGraph) (dep : Nat) (modKey : Nat) : ModuleGraph :=
  updateNode g dep (fun v => { v with importers := osAdd v.importers modKey })

/-- The import-resolution loop of `updateModuleInfo`: raw-url entries go
through `ensureEntryFromUrl`, node entries are used directly; each resolved
dependency records `modKey` among its importers.  The concurrent
resolutions are interpreted in sequence (cooperative scheduling); a
rejection aborts the update as `Promise.all` does. -/
def resolveImportedDeps (modKey : Nat) (ssr : Bool) :
    ModuleGraph → List (String ⊕ Nat) → Except Unit (List Nat) × ModuleGraph
  | g, [] => (Except.ok [], g)
  | g, Sum.inl s :: rest =>
    match g.ensureEntryFromUrl s ssr true with
    | (Except.error _, g1) => (Except.error (), g1)
    | (Except.ok dep, g1) =>
      let g2 := addImporter g1 dep modKey
      match resolveImportedDeps modKey ssr g2 rest with
      | (Except.error _, g3) => (Except.error (), g3)
      | (Except.ok ks, g3) => (Except.ok (dep :: ks), g3)
  | g, Sum.inr dep :: rest =>
    let g2 := addImporter g dep modKey
    match resolveImportedDeps modKey ssr g2 rest with
    | (Except.error _, g3) => (Except.error (), g3)
    | (Except.ok ks, g3) => (Except.ok (dep :: ks), g3)

/-- The accepted-dependency resolution loop of `updateModuleInfo` (no
importer registration). -/
def resolveAcceptedDeps (ssr : Bool) :
    ModuleGraph → List (String ⊕ Nat) → Except Unit (List Nat) × ModuleGraph
  | g, [] => (Except.ok [], g)
  | g, Sum.inl s :: rest =>
    match g.ensureEntryFromUrl s ssr true with
    | (Except.error _, g1) => (Except.error (), g1)
    | (Except.ok dep, g1) =>
      match resolveAcceptedDeps ssr g1 rest with
      | (Except.error _, g3) => (Except.error (), g3)
      | (Except.ok ks, g3) => (Except.ok (dep :: ks), g3)
  | g, Sum.inr dep :: rest =>
    match resolveAcceptedDeps ssr g rest with
    | (Except.error _, g3) => (Except.error (), g3)
    | (Except.ok ks, g3) => (Except.ok (dep :: ks), g3)

/-- The pruning loop: remove `modKey` from the importers of every
previously-imported dependency that is no longer in either of `modKey`'s
current edge sets; a dependency whose importer set becomes empty joins the
orphan accumulator. -/
def pruneImports (modKey : Nat) :
    ModuleGraph → List Nat → List Nat → ModuleGraph × List Nat
  | g, [], orphans => (g, orphans)
  | g, dep :: rest, orphans =>
    match findNode g modKey with
    | some m =>
      if dep ∈ m.clientImportedModules ∨ dep ∈ m.ssrImportedModules then
        pruneImports modKey g rest orphans
      else
        let g1 := updateNode g dep (fun v => { v with importers := osErase v.importers modKey })
        let orphans1 :=
          match findNode g1 dep with
          | some v => if v.importers.isEmpty then osAdd orphans dep else orphans
          | none => orphans
        pruneImports modKey g1 rest orphans1
    | none => pruneImports modKey g rest orphans

/-- `updateModuleInfo`.  The node for `modKey` is assumed to exist (it
always does in the source, where `mod` is an object reference); on a
missing key the model is a no-op. -/
def ModuleGraph.updateModuleInfo (g : ModuleGraph) (modKey : Nat)
    (importedModules : List (String ⊕ Nat))
    (importedBindings : Option (List (String × List String)))
    (acceptedModules : List (String ⊕ Nat))
    (acceptedExports : Option (List String))
    (isSelfAccepting : Bool) (ssr : Bool) :
    Except Unit (Option (List Nat)) × ModuleGraph :=
  match findNode g modKey with
  | none => (Except.ok none, g)
  | some mod0 =>
    let g1 := updateNode g modKey (fun v => { v with isSelfAccepting := some isSelfAccepting })
    let prevImports := if ssr then mod0.ssrImportedModules else mod0.clientImportedModules
    match resolveImportedDeps modKey ssr g1 importedModules with
    | (Except.error _, g2) => (Except.error (), g2)
    | (Except.ok results, g2) =>
      let nextImports := dedupKeep results
      let g3 := updateNode g2 modKey (fun v =>
        if ssr then { v with ssrImportedModules := nextImports }
        else { v with clientImportedModules := nextImports })
      let pr := pruneImports modKey g3 prevImports []
      match resolveAcceptedDeps ssr pr.1 acceptedModules with
      | (Except.error _, g4) => (Except.error (), g4)
      | (Except.ok aresults, g4) =>
        let g5 := updateNode g4 modKey (fun v =>
          { v with acceptedHmrDeps := dedupKeep aresults
                   acceptedHmrExports := acceptedExports
                   importedBindings := importedBindings })
        (Except.ok (if pr.2.isEmpty then none else some pr.2), g5)

/-! ### Operation sequences (for the timestamp-monotonicity invariant).
`Date.now()` timestamps are the `t` arguments; the clock is a parameter of
the model. -/

inductive GraphOp
  | invalidate (key : Nat) (t : Nat) (isHmr : Bool) (bnds : List Nat)
  | invalidateAll (t : Nat)
  | fileChange (file : String) (t : Nat)

def GraphOp.time : GraphOp → Nat
  | .invalidate _ t _ _ => t
  | .invalidateAll t => t
  | .fileChange _ t => t

def applyOp (g : ModuleGraph) : GraphOp → ModuleGraph
  | .invalidate k t hm bnds => (g.invalidateModule k [] t hm bnds).1
  | .invalidateAll t => (g.invalidateAll t).1
  | .fileChange f t => (g.onFileChange f t).1

def runOps (g : ModuleGraph) : List GraphOp → ModuleGraph
  | [] => g
  | op :: rest => runOps (applyOp g op) rest

/-! ### The single-flight protocol of `_ensureEntryFromUrl`.

N concurrent calls for one raw URL (and one ssr flag).  The runtime is
single-threaded: each call's synchronous prefix — the pending-cache check
and, on a miss, starting the resolver (`_resolveUrl` invokes it before its
first suspension) and publishing the in-flight promise under the raw URL —
runs as one atomic block; the continuation after the suspension (node
creation/registration) is a second atomic block.  A task is `start` before
its prefix ran, `publishedWork` while its resolution is in flight, `done`
when its caller holds the (shared) result. -/

inductive TaskPhase
  | start
  | publishedWork
  | done
deriving DecidableEq, Repr

structure FlightState where
  pendingPublished : Bool
  resolverCalls : Nat
  tasks : List TaskPhase
deriving DecidableEq, Repr

def initFlight (n : Nat) : FlightState :=
  { pendingPublished := false, resolverCalls := 0, tasks := List.replicate n TaskPhase.start }

/-- One scheduler step: a task's cache-hitting prefix (it adopts the
published in-flight handle and is done awaiting it), a task's cache-missing
prefix (it invokes the resolver and publishes the handle before any other
task can run), or the completion of the published resolution. -/
inductive FlightStep : FlightState → FlightState → Prop
  | hitCache (i : Nat) (s : FlightState) :
      s.tasks.get? i = some TaskPhase.start → s.pendingPublished = true →
      FlightStep s { s with tasks := s.tasks.set i TaskPhase.done }
  | beginResolve (i : Nat) (s : FlightState) :
      s.tasks.get? i = some TaskPhase.start → s.pendingPublished = false →
      FlightStep s { s with
        pendingPublished := true
        resolverCalls := s.resolverCalls + 1
        tasks := s.tasks.set i TaskPhase.publishedWork }
  | completeResolve (i : Nat) (s : FlightState) :
      s.tasks.get? i = some TaskPhase.publishedWork →
      FlightStep s { s with tasks := s.tasks.set i TaskPhase.done }

def FlightReachable (n : Nat) (s : FlightState) : Prop :=
  Relation.ReflTransGen FlightStep (initFlight n) s

/-- The single-flight invariant: the task count is constant; before the
in-flight handle is published no resolver call has happened and every task
is still at its synchronous prefix; afterwards exactly one call has
happened. -/
def FlightInv (n : Nat) (s : FlightState) : Prop :=
  s.tasks.length = n ∧
  (s.pendingPublished = false →
    s.resolverCalls = 0 ∧ ∀ p ∈ s.tasks, p = TaskPhase.start) ∧
  (s.pendingPublished = true → s.resolverCalls = 1)

/-! ### Registry invariants -/

/-- The resolved id `_ensureEntryFromUrl` computes for an already-stripped
url: the injected resolver's id, falling back to the url itself. -/
def resolvedIdOf (g : ModuleGraph) (u : String) (b : Bool) : Except Unit String :=
  match g.resolveId u b with
  | Except.error _ => Except.error ()
  | Except.ok ro => Except.ok (resolveIdFallback ro u)

/-- Registry well-formedness: node keys are below the fresh-key counter and
duplicate-free, and the pending caches and the id index only point to
existing nodes. -/
structure GraphWF (g : ModuleGraph) : Prop where
  keys_lt : ∀ p ∈ g.nodes, p.1 < g.nextKey
  keys_nodup : (g.nodes.map Prod.fst).Nodup
  pend_client : ∀ p ∈ g._unresolvedUrlToModuleMap, ∀ k, p.2 = Pending.node k →
    (findNode g k).isSome
  pend_ssr : ∀ p ∈ g._ssrUnresolvedUrlToModuleMap, ∀ k, p.2 = Pending.node k →
    (findNode g k).isSome
  idm : ∀ p ∈ g.idToModuleMap, (findNode g p.2).isSome

/-- Pending-cache consistency: a settled node cached under a raw URL is
exactly the node the id index holds for that URL's resolved id. -/
def PendConsistent (g : ModuleGraph) : Prop :=
  ∀ (b : Bool), ∀ p ∈ pendMap g b, ∀ k, p.2 = Pending.node k →
    ∃ rid, resolvedIdOf g p.1 b = Except.ok rid ∧ alookup g.idToModuleMap rid = some k

/-- The joint postcondition of the pruning loop of `updateModuleInfo`
(against the fixed current edge sets `C` and `S` of the updated module):
registry invariants survive, the orphan accumulator only grows, node values
evolve only by losing `modKey` from their importer sets, dependencies still
imported in either direction are untouched, and every listed dependency
imported in neither direction has `modKey` removed from its importers and
joins the orphan set if its importers are thereby empty. -/
structure PrunePost (modKey : Nat) (C S : List Nat) (g : ModuleGraph)
    (lst orphans : List Nat) (out : ModuleGraph × List Nat) : Prop where
  wf : GraphWF g → GraphWF out.1
  pend : PendConsistent g → PendConsistent out.1
  orph_mono : ∀ x ∈ orphans, x ∈ out.2
  frame : ∀ j v, findNode g j = some v → ∃ v', findNode out.1 j = some v' ∧
    (v'.importers = v.importers ∨ v'.importers = osErase v.importers modKey) ∧
    v'.clientImportedModules = v.clientImportedModules ∧
    v'.ssrImportedModules = v.ssrImportedModules
  frame_none : ∀ j, findNode g j = none → findNode out.1 j = none
  skip : ∀ j, (j ∈ C ∨ j ∈ S) → ∀ v, findNode g j = some v → findNode out.1 j = some v
  pruned : ∀ dep ∈ lst, dep ∉ C → dep ∉ S → ∀ v', findNode out.1 dep = some v' →
    modKey ∉ v'.importers ∧ (v'.importers.isEmpty = true → dep ∈ out.2)

/-- The postcondition of the registration step (and of a successful
`ensureEntryFromUrl`): the returned node is registered in the id index
under the resolved id, existing id-index entries and nodes survive
untouched, and the registry invariants are preserved. -/
structure RegisterSpec (g g' : ModuleGraph) (rid : String) (k : Nat) : Prop where
  id_self : alookup g'.idToModuleMap rid = some k
  id_stable : ∀ i j, alookup g.idToModuleMap i = some j → alookup g'.idToModuleMap i = some j
  node_frame : ∀ j v, findNode g j = some v → findNode g' j = some v
  result_present : (findNode g' k).isSome
  wf : GraphWF g'
  pend : PendConsistent g'
  resolver_eq : g'.resolveId = g.resolveId
  nextKey_mono : g.nextKey ≤ g'.nextKey

/-- `x` occurs in some node's importer set of `g`. -/
def ImpUniv (g : ModuleGraph) (x : Nat) : Prop :=
  ∃ p ∈ g.nodes, x ∈ p.2.importers

/-- Every node pair of `g'` descends, key for key, from a pair of `g`,
either unchanged or artifact-cleared with timestamp `t` and flavour `hm`. -/
def MemEvolve (g g' : ModuleGraph) (t : Nat) (hm : Bool) : Prop :=
  ∀ p ∈ g'.nodes, ∃ q ∈ g.nodes,
    p.1 = q.1 ∧ (p.2 = q.2 ∨ p.2 = q.2.clearArtifacts t hm)

/-- The joint postcondition of the invalidation walk: the returned `seen`
set is the input plus the freshly visited nodes (which are distinct and new
— no node is invalidated twice), every node's final value is its original
value, artifact-cleared exactly when the node was visited, visited nodes
are the entry point(s) or members of some importer set, and the store
evolves only by artifact clearing. -/
structure InvPost (g : ModuleGraph) (src : Nat → Prop) (seen : List Nat) (t : Nat)
    (hm : Bool) (r : ModuleGraph × List Nat × List Nat) : Prop where
  seen_eq : r.2.1 = seen ++ r.2.2
  fresh : ∀ x ∈ r.2.2, x ∉ seen
  nodup : r.2.2.Nodup
  lookup : ∀ j v, findNode g j = some v →
    findNode r.1 j = some (if j ∈ r.2.2 then v.clearArtifacts t hm else v)
  lookup_none : ∀ j, findNode g j = none → findNode r.1 j = none
  source : ∀ x ∈ r.2.2, src x ∨ ImpUniv g x
  evolve : MemEvolve g r.1 t hm

/-! ### Concrete instances used by witnesses and counterexamples -/

/-- A three-node importer chain: `A` (key 0) imports `B` (key 1) imports
`C` (key 2). -/
def chainGraph (A B C : ModuleNode) : ModuleGraph :=
  { resolveId := fun _ _ => Except.ok none
    nodes := [(0, A), (1, B), (2, C)]
    nextKey := 3 }

def cA : ModuleNode :=
  { url := "/a", type := ModuleType.js, importers := [], transformResult := some 1 }

def cB : ModuleNode :=
  { url := "/b", type := ModuleType.js, importers := [0], acceptedHmrDeps := [2]
    transformResult := some 2 }

def cC : ModuleNode :=
  { url := "/c", type := ModuleType.js, importers := [1], transformResult := some 3 }

/-- A resolver that always reports a null (unresolvable) result. -/
def nullResolver : String → Bool → Except Unit (Option PartialResolvedId) :=
  fun _ _ => Except.ok none

/-- A resolver that always rejects. -/
def rejectingResolver : String → Bool → Except Unit (Option PartialResolvedId) :=
  fun _ _ => Except.error ()

/-- A resolver mapping every URL to the id `/a.css`. -/
def cssResolver : String → Bool → Except Unit (Option PartialResolvedId) :=
  fun _ _ => Except.ok (some { id := "/a.css" })

def w7node : ModuleNode :=
  { url := "/w", type := ModuleType.js, info := some 5, meta := some 6
    importers := [9], transformResult := some 3, ssrError := some 4 }

def gW7 : ModuleGraph :=
  { resolveId := nullResolver, nodes := [(0, w7node)], nextKey := 1 }

def gnull : ModuleGraph := { resolveId := nullResolver }

def grej : ModuleGraph := { resolveId := rejectingResolver }

/-- A resolver sending both `/App` and `/App.vue` to one id. -/
def gC3 : ModuleGraph :=
  { resolveId := fun _ _ => Except.ok (some { id := "/abs/App.vue" }) }

def gC8 : ModuleGraph :=
  { resolveId := fun _ _ => Except.ok (some { id := "/abs/src/App.vue", meta := some 2 }) }

/-- An empty registry over the css resolver. -/
def gcss : ModuleGraph := { resolveId := cssResolver }

/-- The updated module of the `C2` witness: currently imports node 1. -/
def c2mod : ModuleNode :=
  { url := "/m", type := ModuleType.js, clientImportedModules := [1] }

/-- The previously imported dependency of the `C2` witness. -/
def c2old : ModuleNode :=
  { url := "/old", type := ModuleType.js, importers := [0] }

/-- The newly imported dependency of the `C2` witness. -/
def c2new : ModuleNode :=
  { url := "/new", type := ModuleType.js }

def gC2 : ModuleGraph :=
  { resolveId := nullResolver
    nodes := [(0, c2mod), (1, c2old), (2, c2new)]
    nextKey := 3 }

def w9node : ModuleNode :=
  { url := "/w9", type := ModuleType.js, id := some "/w9", transformResult := some 1 }

def gW9 : ModuleGraph :=
  { resolveId := nullResolver, nodes := [(0, w9node)], nextKey := 1
    idToModuleMap := [("/w9", 0)] }

/-! ## Basic lemmas about the list primitives -/

theorem alookup_mem {κ α : Type} [DecidableEq κ] {m : List (κ × α)} {k : κ} {v : α}
    (h : alookup m k = some v) : (k, v) ∈ m := by
  induction m with
  | nil => simp [alookup] at h
  | cons p rest ih =>
    obtain ⟨k', v'⟩ := p
    by_cases hk : k' = k
    · subst hk
      simp [alookup] at h
      simp [h]
    · simp only [alookup, if_neg hk] at h
      exact List.mem_cons_of_mem _ (ih h)

theorem alookup_aset_self {κ α : Type} [DecidableEq κ] (m : List (κ × α)) (k : κ) (v : α) :
    alookup (aset m k v) k = some v := by
  induction m with
  | nil => simp [aset, alookup]
  | cons p rest ih =>
    obtain ⟨k', v'⟩ := p
    by_cases hk : k' = k
    · simp [aset, hk, alookup]
    · simp [aset, hk, alookup, ih]

theorem alookup_aset_ne {κ α : Type} [DecidableEq κ] (m : List (κ × α)) (k j : κ) (v : α)
    (hj : j ≠ k) : alookup (aset m k v) j = alookup m j := by
  have hkj : ¬ k = j := fun h => hj h.symm
  induction m with
  | nil => simp [aset, alookup, hkj]
  | cons p rest ih =>
    obtain ⟨k', v'⟩ := p
    by_cases hk : k' = k
    · subst hk
      simp [aset, alookup, hkj]
    · by_cases hkj' : k' = j
      · simp [aset, hk, alookup, hkj', hj]
      · simp [aset, hk, alookup, hkj', ih]

theorem mem_aset {κ α : Type} [DecidableEq κ] {m : List (κ × α)} {k : κ} {v : α} {p : κ × α}
    (h : p ∈ aset m k v) : p = (k, v) ∨ p ∈ m := by
  induction m with
  | nil => simpa [aset] using h
  | cons q rest ih =>
    obtain ⟨k', v'⟩ := q
    by_cases hk : k' = k
    · subst hk
      simp only [aset, if_pos rfl] at h
      rcases List.mem_cons.mp h with h | h
      · exact Or.inl h
      · exact Or.inr (List.mem_cons_of_mem _ h)
    · simp only [aset, if_neg hk] at h
      rcases List.mem_cons.mp h with h | h
      · exact Or.inr (by simp [h])
      · rcases ih h with h | h
        · exact Or.inl h
        · exact Or.inr (List.mem_cons_of_mem _ h)

theorem alookup_eq_none_iff {κ α : Type} [DecidableEq κ] (m : List (κ × α)) (k : κ) :
    alookup m k = none ↔ k ∉ m.map Prod.fst := by
  induction m with
  | nil => simp [alookup]
  | cons p rest ih =>
    obtain ⟨k', v'⟩ := p
    by_cases hk : k' = k
    · subst hk; simp [alookup]
    · have hk' : ¬ k = k' := fun h => hk h.symm
      simp [alookup, hk, ih, hk']

theorem map_fst_aset {κ α : Type} [DecidableEq κ] (m : List (κ × α)) (k : κ) (v : α) :
    (aset m k v).map Prod.fst =
      if (alookup m k).isSome then m.map Prod.fst else m.map Prod.fst ++ [k] := by
  induction m with
  | nil => simp [aset, alookup]
  | cons p rest ih =>
    obtain ⟨k', v'⟩ := p
    by_cases hk : k' = k
    · subst hk; simp [aset, alookup]
    · simp only [aset, if_neg hk, List.map_cons, alookup, ih]
      by_cases hs : (alookup rest k).isSome <;> simp [hs]

theorem nodup_map_fst_aset {κ α : Type} [DecidableEq κ] (m : List (κ × α)) (k : κ) (v : α)
    (h : (m.map Prod.fst).Nodup) : ((aset m k v).map Prod.fst).Nodup := by
  rw [map_fst_aset]
  by_cases hs : (alookup m k).isSome
  · simpa [hs] using h
  · have hk : k ∉ m.map Prod.fst := by
      rw [← alookup_eq_none_iff m k]
      exact Option.not_isSome_iff_eq_none.mp hs
    simp only [hs, if_false]
    exact List.Nodup.append h (List.nodup_singleton k) (by
      intro x hx hx'
      simp at hx'
      subst hx'
      exact hk hx)

theorem mem_osAdd {l : List Nat} {x y : Nat} : x ∈ osAdd l y ↔ x ∈ l ∨ x = y := by
  unfold osAdd
  by_cases h : y ∈ l
  · simp only [if_pos h]
    constructor
    · exact Or.inl
    · rintro (hx | rfl)
      · exact hx
      · exact h
  · simp [if_neg h]

theorem mem_of_mem_osAdd {l : List Nat} {x y : Nat} (h : x ∈ osAdd l y) : x ∈ l ∨ x = y :=
  mem_osAdd.mp h

theorem self_mem_osAdd (l : List Nat) (y : Nat) : y ∈ osAdd l y :=
  mem_osAdd.mpr (Or.inr rfl)

theorem mem_osAdd_of_mem {l : List Nat} {x : Nat} (y : Nat) (h : x ∈ l) : x ∈ osAdd l y :=
  mem_osAdd.mpr (Or.inl h)

theorem mem_osErase {l : List Nat} {x y : Nat} : x ∈ osErase l y ↔ x ∈ l ∧ x ≠ y := by
  simp [osErase, List.mem_filter, bne_iff_ne]

theorem mem_dedupKeep {l : List Nat} {x : Nat} : x ∈ dedupKeep l → x ∈ l := by
  induction l with
  | nil => simp [dedupKeep]
  | cons y rest ih =>
    intro h
    rw [dedupKeep] at h
    rcases List.mem_cons.mp h with rfl | h
    · exact List.mem_cons_self _ _
    · exact List.mem_cons_of_mem _ (ih (List.mem_filter.mp h).1)

/-! ## Basic lemmas about the node store -/

theorem findNode_setNode_self (g : ModuleGraph) (k : Nat) (v : ModuleNode) :
    findNode (setNode g k v) k = some v := by
  simp [findNode, setNode, alookup_aset_self]

theorem findNode_setNode_ne (g : ModuleGraph) (k j : Nat) (v : ModuleNode) (hj : j ≠ k) :
    findNode (setNode g k v) j = findNode g j := by
  simp [findNode, setNode, alookup_aset_ne _ _ _ _ hj]

theorem updateNode_of_none {g : ModuleGraph} {k : Nat} (f : ModuleNode → ModuleNode)
    (h : findNode g k = none) : updateNode g k f = g := by
  unfold updateNode
  rw [show alookup g.nodes k = none from h]

theorem findNode_updateNode_self {g : ModuleGraph} {k : Nat} {v : ModuleNode}
    (f : ModuleNode → ModuleNode) (h : findNode g k = some v) :
    findNode (updateNode g k f) k = some (f v) := by
  unfold updateNode
  rw [show alookup g.nodes k = some v from h]
  exact findNode_setNode_self _ _ _

theorem findNode_updateNode_ne {g : ModuleGraph} {k j : Nat}
    (f : ModuleNode → ModuleNode) (hj : j ≠ k) :
    findNode (updateNode g k f) j = findNode g j := by
  unfold updateNode
  cases h : alookup g.nodes k with
  | none => rfl
  | some v => exact findNode_setNode_ne _ _ _ _ hj

/-! ## Lemmas about the pending caches and `ensureEntryFromUrl` -/

theorem setPend_nodes (g : ModuleGraph) (u : String) (e : Pending) (b : Bool) :
    (g._setUnresolvedUrlToModule u e b).nodes = g.nodes := by
  cases b <;> rfl

theorem setPend_idToModuleMap (g : ModuleGraph) (u : String) (e : Pending) (b : Bool) :
    (g._setUnresolvedUrlToModule u e b).idToModuleMap = g.idToModuleMap := by
  cases b <;> rfl

theorem setPend_urlToModuleMap (g : ModuleGraph) (u : String) (e : Pending) (b : Bool) :
    (g._setUnresolvedUrlToModule u e b).urlToModuleMap = g.urlToModuleMap := by
  cases b <;> rfl

theorem setPend_fileToModulesMap (g : ModuleGraph) (u : String) (e : Pending) (b : Bool) :
    (g._setUnresolvedUrlToModule u e b).fileToModulesMap = g.fileToModulesMap := by
  cases b <;> rfl

theorem setPend_nextKey (g : ModuleGraph) (u : String) (e : Pending) (b : Bool) :
    (g._setUnresolvedUrlToModule u e b).nextKey = g.nextKey := by
  cases b <;> rfl

theorem setPend_resolveId (g : ModuleGraph) (u : String) (e : Pending) (b : Bool) :
    (g._setUnresolvedUrlToModule u e b).resolveId = g.resolveId := by
  cases b <;> rfl

theorem setPend_resolveCount (g : ModuleGraph) (u : String) (e : Pending) (b : Bool) :
    (g._setUnresolvedUrlToModule u e b).resolveCount = g.resolveCount := by
  cases b <;> rfl

theorem pendMap_setPend_same (g : ModuleGraph) (u : String) (e : Pending) (b : Bool) :
    pendMap (g._setUnresolvedUrlToModule u e b) b = aset (pendMap g b) u e := by
  cases b <;> rfl

theorem pendMap_setPend_cases (g : ModuleGraph) (u : String) (e : Pending) (b b' : Bool) :
    pendMap (g._setUnresolvedUrlToModule u e b) b' =
      if b' = b then aset (pendMap g b) u e else pendMap g b' := by
  cases b <;> cases b' <;> simp [pendMap, ModuleGraph._setUnresolvedUrlToModule]

theorem findNode_setPend (g : ModuleGraph) (u : String) (e : Pending) (b : Bool) (k : Nat) :
    findNode (g._setUnresolvedUrlToModule u e b) k = findNode g k := by
  simp [findNode, setPend_nodes]

/-- The two pending-cache fields of `GraphWF`, packaged over the ssr flag. -/
theorem GraphWF.pend {g : ModuleGraph} (hwf : GraphWF g) :
    ∀ (b : Bool), ∀ p ∈ pendMap g b, ∀ k, p.2 = Pending.node k → (findNode g k).isSome := by
  intro b
  cases b
  · exact hwf.pend_client
  · exact hwf.pend_ssr

theorem GraphWF.ofPend {g : ModuleGraph}
    (h1 : ∀ p ∈ g.nodes, p.1 < g.nextKey)
    (h2 : (g.nodes.map Prod.fst).Nodup)
    (h3 : ∀ (b : Bool), ∀ p ∈ pendMap g b, ∀ k, p.2 = Pending.node k → (findNode g k).isSome)
    (h4 : ∀ p ∈ g.idToModuleMap, (findNode g p.2).isSome) : GraphWF g :=
  ⟨h1, h2, h3 false, h3 true, h4⟩

theorem resolvedIdOf_congr {g g' : ModuleGraph} (h : g'.resolveId = g.resolveId)
    (u : String) (b : Bool) : resolvedIdOf g' u b = resolvedIdOf g u b := by
  simp [resolvedIdOf, h]

theorem isSome_of_frame {g g' : ModuleGraph}
    (hframe : ∀ j v, findNode g j = some v → findNode g' j = some v) {j : Nat}
    (h : (findNode g j).isSome) : (findNode g' j).isSome := by
  rcases Option.isSome_iff_exists.mp h with ⟨v, hv⟩
  rw [hframe j v hv]
  rfl

theorem registerResolved_spec {g : ModuleGraph} {raw url rid : String} {meta : Option Nat}
    {s b : Bool} {k : Nat} {g' : ModuleGraph}
    (hwf : GraphWF g) (hpc : PendConsistent g)
    (hnew : resolvedIdOf g raw b = Except.ok rid)
    (h : registerResolved g raw url rid meta s b = (k, g')) :
    RegisterSpec g g' rid k := by
  unfold registerResolved at h
  rcases hid : alookup g.idToModuleMap rid with _ | k0
  · -- create branch: a fresh node is registered across the indexes
    rw [hid] at h
    dsimp only at h
    injection h with hk hg
    subst hk
    subst hg
    set nd : ModuleNode := { ModuleNode.create url s with
      meta := meta, id := some rid, file := some (cleanUrl rid) } with hnd
    set G' : ModuleGraph := ((addFileEntry (setIdEntry (setUrlEntry
      (pushNode g nd) url g.nextKey) rid g.nextKey) (cleanUrl rid)
      g.nextKey)._setUnresolvedUrlToModule raw (Pending.node g.nextKey) b) with hG'
    have hN : G'.nodes = aset g.nodes g.nextKey nd := by
      rw [hG', setPend_nodes]
      rfl
    have hId : G'.idToModuleMap = aset g.idToModuleMap rid g.nextKey := by
      rw [hG', setPend_idToModuleMap]
      rfl
    have hNk : G'.nextKey = g.nextKey + 1 := by
      rw [hG', setPend_nextKey]
      rfl
    have hRes : G'.resolveId = g.resolveId := by
      rw [hG', setPend_resolveId]
      rfl
    have hPend : ∀ (b'' : Bool),
        pendMap G' b'' =
        if b'' = b then aset (pendMap g b) raw (Pending.node g.nextKey)
        else pendMap g b'' := by
      intro b''
      rw [hG']
      cases b <;> cases b'' <;>
        simp [pendMap, ModuleGraph._setUnresolvedUrlToModule, addFileEntry, setIdEntry,
          setUrlEntry, pushNode]
    have hframe : ∀ j v, findNode g j = some v → findNode G' j = some v := by
      intro j v hv
      show alookup G'.nodes j = some v
      rw [hN]
      have hlt : j < g.nextKey := hwf.keys_lt (j, v) (alookup_mem hv)
      rw [alookup_aset_ne _ _ _ _ (Nat.ne_of_lt hlt)]
      exact hv
    have hpresent : (findNode G' g.nextKey).isSome := by
      show (alookup G'.nodes g.nextKey).isSome
      rw [hN, alookup_aset_self]
      rfl
    have hidself : alookup G'.idToModuleMap rid = some g.nextKey := by
      rw [hId]
      exact alookup_aset_self _ _ _
    have hidstable : ∀ i j, alookup g.idToModuleMap i = some j →
        alookup G'.idToModuleMap i = some j := by
      intro i j hij
      rw [hId]
      have hne : i ≠ rid := by
        rintro rfl
        rw [hid] at hij
        exact Option.noConfusion hij
      rw [alookup_aset_ne _ _ _ _ hne]
      exact hij
    refine ⟨hidself, hidstable, hframe, hpresent, ?_, ?_, hRes, by rw [hNk]; exact Nat.le_succ _⟩
    · -- well-formedness is preserved
      refine GraphWF.ofPend ?_ ?_ ?_ ?_
      · intro p hp
        rw [hNk]
        rw [hN] at hp
        rcases mem_aset hp with rfl | hp'
        · exact Nat.lt_succ_self _
        · exact Nat.lt_succ_of_lt (hwf.keys_lt p hp')
      · have : G'.nodes.map Prod.fst = (aset g.nodes g.nextKey nd).map Prod.fst := by rw [hN]
        rw [this]
        exact nodup_map_fst_aset _ _ _ hwf.keys_nodup
      · intro b'' p hp kk hkk
        rw [hPend b''] at hp
        by_cases hb : b'' = b
        · rw [if_pos hb] at hp
          rcases mem_aset hp with rfl | hp'
          · have : kk = g.nextKey := by
              cases hkk
              rfl
            subst this
            exact hpresent
          · exact isSome_of_frame hframe (hwf.pend b p hp' kk hkk)
        · rw [if_neg hb] at hp
          exact isSome_of_frame hframe (hwf.pend b'' p hp kk hkk)
      · intro p hp
        rw [hId] at hp
        rcases mem_aset hp with rfl | hp'
        · exact hpresent
        · exact isSome_of_frame hframe (hwf.idm p hp')
    · -- pending-cache consistency is preserved
      intro b'' p hp kk hkk
      rw [hPend b''] at hp
      by_cases hb : b'' = b
      · rw [if_pos hb] at hp
        rcases mem_aset hp with rfl | hp'
        · have : kk = g.nextKey := by
            cases hkk
            rfl
          subst this
          subst hb
          refine ⟨rid, ?_, hidself⟩
          rw [resolvedIdOf_congr hRes]
          exact hnew
        · obtain ⟨rp, hr, hi⟩ := hpc b p hp' kk hkk
          subst hb
          refine ⟨rp, ?_, hidstable _ _ hi⟩
          rw [resolvedIdOf_congr hRes]
          exact hr
      · rw [if_neg hb] at hp
        obtain ⟨rp, hr, hi⟩ := hpc b'' p hp kk hkk
        refine ⟨rp, ?_, hidstable _ _ hi⟩
        rw [resolvedIdOf_congr hRes]
        exact hr
  · -- alias branch: the resolved id already has a node
    rw [hid] at h
    dsimp only at h
    have hproof : ∀ (g2 : ModuleGraph),
        g2.nodes = g.nodes → g2.idToModuleMap = g.idToModuleMap →
        g2.nextKey = g.nextKey → g2.resolveId = g.resolveId →
        (∀ b'', pendMap g2 b'' = pendMap g b'') →
        (g2._setUnresolvedUrlToModule raw (Pending.node k0) b) = g' → k0 = k →
        RegisterSpec g g' rid k := by
      intro g2 hn hi hk hr hpm hg hk0
      subst hg
      have hk0' := hk0.symm
      subst hk0'
      have hN2 : (g2._setUnresolvedUrlToModule raw (Pending.node k) b).nodes = g.nodes := by
        rw [setPend_nodes, hn]
      have hId2 : (g2._setUnresolvedUrlToModule raw (Pending.node k) b).idToModuleMap =
          g.idToModuleMap := by
        rw [setPend_idToModuleMap, hi]
      have hNk2 : (g2._setUnresolvedUrlToModule raw (Pending.node k) b).nextKey =
          g.nextKey := by
        rw [setPend_nextKey, hk]
      have hRes2 : (g2._setUnresolvedUrlToModule raw (Pending.node k) b).resolveId =
          g.resolveId := by
        rw [setPend_resolveId, hr]
      have hPend2 : ∀ (b'' : Bool),
          pendMap (g2._setUnresolvedUrlToModule raw (Pending.node k) b) b'' =
          if b'' = b then aset (pendMap g b) raw (Pending.node k) else pendMap g b'' := by
        intro b''
        rw [pendMap_setPend_cases]
        by_cases hb : b'' = b
        · rw [if_pos hb, if_pos hb, hpm b]
        · rw [if_neg hb, if_neg hb, hpm b'']
      have hframe : ∀ j v, findNode g j = some v →
          findNode (g2._setUnresolvedUrlToModule raw (Pending.node k) b) j = some v := by
        intro j v hv
        show alookup (g2._setUnresolvedUrlToModule raw (Pending.node k) b).nodes j = some v
        rw [hN2]
        exact hv
      have hpresent : (findNode (g2._setUnresolvedUrlToModule raw (Pending.node k) b) k).isSome := by
        exact isSome_of_frame hframe (hwf.idm (rid, k) (alookup_mem hid))
      have hidself2 : alookup
          (g2._setUnresolvedUrlToModule raw (Pending.node k) b).idToModuleMap rid = some k := by
        rw [hId2]
        exact hid
      have hidstable2 : ∀ i j, alookup g.idToModuleMap i = some j →
          alookup (g2._setUnresolvedUrlToModule raw (Pending.node k) b).idToModuleMap i =
            some j := by
        intro i j hij
        rw [hId2]
        exact hij
      refine ⟨hidself2, hidstable2, hframe, hpresent, ?_, ?_, hRes2, by rw [hNk2]⟩
      · refine GraphWF.ofPend ?_ ?_ ?_ ?_
        · intro p hp
          rw [hNk2]
          rw [hN2] at hp
          exact hwf.keys_lt p hp
        · have heq : (g2._setUnresolvedUrlToModule raw (Pending.node k) b).nodes.map Prod.fst =
              g.nodes.map Prod.fst := by rw [hN2]
          rw [heq]
          exact hwf.keys_nodup
        · intro b'' p hp kk hkk
          rw [hPend2 b''] at hp
          by_cases hb : b'' = b
          · rw [if_pos hb] at hp
            rcases mem_aset hp with rfl | hp'
            · have : kk = k := by
                cases hkk
                rfl
              subst this
              exact hpresent
            · exact isSome_of_frame hframe (hwf.pend b p hp' kk hkk)
          · rw [if_neg hb] at hp
            exact isSome_of_frame hframe (hwf.pend b'' p hp kk hkk)
        · intro p hp
          rw [hId2] at hp
          exact isSome_of_frame hframe (hwf.idm p hp)
      · intro b'' p hp kk hkk
        rw [hPend2 b''] at hp
        by_cases hb : b'' = b
        · rw [if_pos hb] at hp
          rcases mem_aset hp with rfl | hp'
          · have : kk = k := by
              cases hkk
              rfl
            subst this
            subst hb
            refine ⟨rid, ?_, hidself2⟩
            rw [resolvedIdOf_congr hRes2]
            exact hnew
          · obtain ⟨rp, hr2, hi2⟩ := hpc b p hp' kk hkk
            subst hb
            refine ⟨rp, ?_, hidstable2 _ _ hi2⟩
            rw [resolvedIdOf_congr hRes2]
            exact hr2
        · rw [if_neg hb] at hp
          obtain ⟨rp, hr2, hi2⟩ := hpc b'' p hp kk hkk
          refine ⟨rp, ?_, hidstable2 _ _ hi2⟩
          rw [resolvedIdOf_congr hRes2]
          exact hr2
    rcases hu : alookup g.urlToModuleMap url with _ | u0
    · rw [hu] at h
      injection h with hk hg
      exact hproof (setUrlEntry g url k0) rfl rfl rfl rfl (fun b'' => by cases b'' <;> rfl)
        hg hk
    · rw [hu] at h
      injection h with hk hg
      exact hproof g rfl rfl rfl rfl (fun b'' => rfl) hg hk

/-- A successful `ensureEntryFromUrl` resolves the stripped URL and
registers (or re-finds) the returned node under the resolved id, preserving
the registry invariants. -/
theorem ensure_ok_spec {g g' : ModuleGraph} {u : String} {b s : Bool} {k : Nat}
    (hwf : GraphWF g) (hpc : PendConsistent g)
    (h : g.ensureEntryFromUrl u b s = (Except.ok k, g')) :
    ∃ rid, resolvedIdOf g (stripUrl u) b = Except.ok rid ∧ RegisterSpec g g' rid k := by
  unfold ModuleGraph.ensureEntryFromUrl ModuleGraph._ensureEntryFromUrl at h
  dsimp only at h
  rcases hp : g._getUnresolvedUrlToModule (stripUrl u) b with _ | e
  · rw [hp] at h
    dsimp only at h
    unfold ModuleGraph._resolveUrl at h
    dsimp only at h
    cases hres : g.resolveId (stripUrl u) b with
    | error e =>
      rw [hres] at h
      dsimp only at h
      injection h with h1 h2
      exact Except.noConfusion h1
    | ok ro =>
      rw [hres] at h
      dsimp only at h
      injection h with h1 h2
      have h1' : (registerResolved { g with resolveCount := g.resolveCount + 1 }
          (stripUrl u) (spliceExt (stripUrl u) (resolveIdFallback ro (stripUrl u)))
          (resolveIdFallback ro (stripUrl u)) (resolveIdMeta ro) s b).1 = k :=
        Except.ok.inj h1
      have hreg : registerResolved { g with resolveCount := g.resolveCount + 1 }
          (stripUrl u) (spliceExt (stripUrl u) (resolveIdFallback ro (stripUrl u)))
          (resolveIdFallback ro (stripUrl u)) (resolveIdMeta ro) s b = (k, g') :=
        Prod.ext_iff.mpr ⟨h1', h2⟩
      have hwf1 : GraphWF { g with resolveCount := g.resolveCount + 1 } :=
        ⟨hwf.keys_lt, hwf.keys_nodup, hwf.pend_client, hwf.pend_ssr, hwf.idm⟩
      have hpc1 : PendConsistent { g with resolveCount := g.resolveCount + 1 } := hpc
      have hnew : resolvedIdOf { g with resolveCount := g.resolveCount + 1 }
          (stripUrl u) b = Except.ok (resolveIdFallback ro (stripUrl u)) := by
        show resolvedIdOf g (stripUrl u) b = _
        simp [resolvedIdOf, hres]
      have spec := registerResolved_spec hwf1 hpc1 hnew hreg
      refine ⟨resolveIdFallback ro (stripUrl u), by simp [resolvedIdOf, hres], ?_⟩
      exact ⟨spec.id_self, spec.id_stable, spec.node_frame, spec.result_present,
        spec.wf, spec.pend, spec.resolver_eq, spec.nextKey_mono⟩
  · cases e with
    | node k0 =>
      rw [hp] at h
      dsimp only at h
      injection h with h1 h2
      have hk : k0 = k := Except.ok.inj h1
      subst hk
      subst h2
      obtain ⟨rid, hr, hi⟩ := hpc b (stripUrl u, Pending.node k0) (alookup_mem hp) k0 rfl
      exact ⟨rid, hr, ⟨hi, fun i j x => x, fun j v x => x,
        hwf.pend b (stripUrl u, Pending.node k0) (alookup_mem hp) k0 rfl,
        hwf, hpc, rfl, le_refl _⟩⟩
    | failed =>
      rw [hp] at h
      dsimp only at h
      injection h with h1 h2
      exact Except.noConfusion h1

/-! ## The invalidation walk: postconditions -/

theorem MemEvolve.refl (g : ModuleGraph) (t : Nat) (hm : Bool) : MemEvolve g g t hm :=
  fun p hp => ⟨p, hp, rfl, Or.inl rfl⟩

theorem clearArtifacts_clearArtifacts (v : ModuleNode) (t : Nat) (hm : Bool) :
    (v.clearArtifacts t hm).clearArtifacts t hm = v.clearArtifacts t hm := by
  cases hm <;> rfl

theorem clearArtifacts_importers (v : ModuleNode) (t : Nat) (hm : Bool) :
    (v.clearArtifacts t hm).importers = v.importers := rfl

theorem MemEvolve.trans {g g1 g2 : ModuleGraph} {t : Nat} {hm : Bool}
    (h1 : MemEvolve g g1 t hm) (h2 : MemEvolve g1 g2 t hm) : MemEvolve g g2 t hm := by
  intro p hp
  obtain ⟨q, hq, hk, hv⟩ := h2 p hp
  obtain ⟨o, ho, hk', hv'⟩ := h1 q hq
  refine ⟨o, ho, hk.trans hk', ?_⟩
  rcases hv with hv | hv <;> rcases hv' with hv' | hv'
  · exact Or.inl (hv.trans hv')
  · exact Or.inr (hv.trans hv')
  · exact Or.inr (hv.trans (congrArg (fun w => ModuleNode.clearArtifacts w t hm) hv'))
  · refine Or.inr ?_
    rw [hv, hv', clearArtifacts_clearArtifacts]

theorem ImpUniv.of_evolve {g g' : ModuleGraph} {t : Nat} {hm : Bool} {x : Nat}
    (he : MemEvolve g g' t hm) (hx : ImpUniv g' x) : ImpUniv g x := by
  obtain ⟨p, hp, hxp⟩ := hx
  obtain ⟨q, hq, _, hv⟩ := he p hp
  refine ⟨q, hq, ?_⟩
  rcases hv with hv | hv
  · rwa [← hv]
  · rw [hv, clearArtifacts_importers] at hxp
    exact hxp

theorem MemEvolve.setClear {g : ModuleGraph} {k : Nat} {v : ModuleNode} {t : Nat} {hm : Bool}
    (h : findNode g k = some v) :
    MemEvolve g (setNode g k (v.clearArtifacts t hm)) t hm := by
  intro p hp
  simp only [setNode] at hp
  rcases mem_aset hp with rfl | hp'
  · exact ⟨(k, v), alookup_mem h, rfl, Or.inr rfl⟩
  · exact ⟨p, hp', rfl, Or.inl rfl⟩

theorem InvPost.nil (g : ModuleGraph) (src : Nat → Prop) (seen : List Nat) (t : Nat)
    (hm : Bool) : InvPost g src seen t hm (g, seen, []) := by
  refine ⟨by simp, by simp, List.nodup_nil, ?_, fun j h => h, by simp, MemEvolve.refl g t hm⟩
  intro j v h
  simpa using h

theorem InvPost.mono_src {g : ModuleGraph} {src src' : Nat → Prop} {seen : List Nat}
    {t : Nat} {hm : Bool} {r : ModuleGraph × List Nat × List Nat}
    (h : InvPost g src seen t hm r) (hs : ∀ x, src x → src' x ∨ ImpUniv g x) :
    InvPost g src' seen t hm r := by
  refine ⟨h.seen_eq, h.fresh, h.nodup, h.lookup, h.lookup_none, ?_, h.evolve⟩
  intro x hx
  rcases h.source x hx with hsx | hu
  · exact hs x hsx
  · exact Or.inr hu

theorem InvPost.comp {g : ModuleGraph} {src src' : Nat → Prop} {seen : List Nat}
    {t : Nat} {hm : Bool} {r r2 : ModuleGraph × List Nat × List Nat}
    (h1 : InvPost g src seen t hm r)
    (h2 : InvPost r.1 src' r.2.1 t hm r2) :
    InvPost g (fun x => src x ∨ src' x) seen t hm (r2.1, r2.2.1, r.2.2 ++ r2.2.2) := by
  have hfresh2 : ∀ x ∈ r2.2.2, x ∉ seen ++ r.2.2 := by
    intro x hx
    have := h2.fresh x hx
    rwa [h1.seen_eq] at this
  refine ⟨?_, ?_, ?_, ?_, ?_, ?_, MemEvolve.trans h1.evolve h2.evolve⟩
  · show r2.2.1 = seen ++ (r.2.2 ++ r2.2.2)
    rw [h2.seen_eq, h1.seen_eq, List.append_assoc]
  · intro x hx
    rcases List.mem_append.mp hx with hx | hx
    · exact h1.fresh x hx
    · intro hxs
      exact hfresh2 x hx (List.mem_append.mpr (Or.inl hxs))
  · refine List.Nodup.append h1.nodup h2.nodup ?_
    intro x hx1 hx2
    exact hfresh2 x hx2 (List.mem_append.mpr (Or.inr hx1))
  · intro j v hv
    have hstep := h1.lookup j v hv
    have hstep2 := h2.lookup j _ hstep
    by_cases hj1 : j ∈ r.2.2
    · have hj2 : j ∉ r2.2.2 := by
        intro hj2
        exact hfresh2 j hj2 (List.mem_append.mpr (Or.inr hj1))
      simp only [if_pos hj1] at hstep2
      simp only [if_neg hj2] at hstep2
      rw [hstep2]
      have : j ∈ r.2.2 ++ r2.2.2 := List.mem_append.mpr (Or.inl hj1)
      simp [this]
    · simp only [if_neg hj1] at hstep2
      by_cases hj2 : j ∈ r2.2.2
      · simp only [if_pos hj2] at hstep2
        rw [hstep2]
        have : j ∈ r.2.2 ++ r2.2.2 := List.mem_append.mpr (Or.inr hj2)
        simp [this]
      · simp only [if_neg hj2] at hstep2
        rw [hstep2]
        have : j ∉ r.2.2 ++ r2.2.2 := by
          intro hj
          rcases List.mem_append.mp hj with hj | hj
          · exact hj1 hj
          · exact hj2 hj
        simp [this]
  · intro j hj
    exact h2.lookup_none j (h1.lookup_none j hj)
  · intro x hx
    rcases List.mem_append.mp hx with hx | hx
    · rcases h1.source x hx with hsx | hu
      · exact Or.inl (Or.inl hsx)
      · exact Or.inr hu
    · rcases h2.source x hx with hsx | hu
      · exact Or.inl (Or.inr hsx)
      · exact Or.inr (ImpUniv.of_evolve h1.evolve hu)

/-- A single clear step (the body of `invalidateModule` before the importer
walk) satisfies the postcondition. -/
theorem InvPost.clearStep {g : ModuleGraph} {modKey : Nat} {v : ModuleNode} {seen : List Nat}
    {t : Nat} {hm : Bool} (hseen : modKey ∉ seen) (hv : findNode g modKey = some v) :
    InvPost g (fun x => x = modKey) seen t hm
      (setNode g modKey (v.clearArtifacts t hm), seen ++ [modKey], [modKey]) := by
  refine ⟨rfl, ?_, List.nodup_singleton _, ?_, ?_, ?_, MemEvolve.setClear hv⟩
  · intro x hx
    simp only [List.mem_singleton] at hx
    subst hx
    exact hseen
  · intro j w hw
    by_cases hj : j = modKey
    · subst hj
      have hwv : w = v := Option.some.inj (hw.symm.trans hv)
      subst hwv
      simp [findNode_setNode_self]
    · rw [findNode_setNode_ne _ _ _ _ hj, hw]
      simp [hj]
  · intro j hj
    have hne : j ≠ modKey := by
      rintro rfl
      rw [hv] at hj
      cases hj
    rw [findNode_setNode_ne _ _ _ _ hne]
    exact hj
  · intro x hx
    simp only [List.mem_singleton] at hx
    subst hx
    exact Or.inl rfl

theorem invalidateListGo_post
    (F : ModuleGraph → Nat → List Nat → Nat → Bool → List Nat →
      ModuleGraph × List Nat × List Nat)
    (modKey : Nat) (t : Nat) (hm : Bool)
    (hF : ∀ g k seen, InvPost g (fun x => x = k) seen t hm (F g k seen t hm [])) :
    ∀ (imps : List Nat) (g : ModuleGraph) (seen : List Nat),
      InvPost g (fun x => x ∈ imps) seen t hm
        (invalidateListGo F modKey g imps seen t hm) := by
  intro imps
  induction imps with
  | nil =>
    intro g seen
    exact InvPost.nil g _ seen t hm
  | cons imp rest ih =>
    intro g seen
    rcases hf : findNode g imp with _ | w
    · have hbody : invalidateListGo F modKey g (imp :: rest) seen t hm =
          (let r := F g imp seen t hm []
           let r2 := invalidateListGo F modKey r.1 rest r.2.1 t hm
           (r2.1, r2.2.1, r.2.2 ++ r2.2.2)) := by
        simp [invalidateListGo, hf]
      rw [hbody]
      have h1 := hF g imp seen
      have h2 := ih (F g imp seen t hm []).1 (F g imp seen t hm []).2.1
      refine (h1.comp h2).mono_src ?_
      rintro x (rfl | hx)
      · exact Or.inl (List.mem_cons_self _ _)
      · exact Or.inl (List.mem_cons_of_mem _ hx)
    · by_cases hacc : modKey ∈ w.acceptedHmrDeps
      · have hbody : invalidateListGo F modKey g (imp :: rest) seen t hm =
            invalidateListGo F modKey g rest seen t hm := by
          simp [invalidateListGo, hf, hacc]
        rw [hbody]
        refine (ih g seen).mono_src ?_
        intro x hx
        exact Or.inl (List.mem_cons_of_mem _ hx)
      · have hbody : invalidateListGo F modKey g (imp :: rest) seen t hm =
            (let r := F g imp seen t hm []
             let r2 := invalidateListGo F modKey r.1 rest r.2.1 t hm
             (r2.1, r2.2.1, r.2.2 ++ r2.2.2)) := by
          simp [invalidateListGo, hf, hacc]
        rw [hbody]
        have h1 := hF g imp seen
        have h2 := ih (F g imp seen t hm []).1 (F g imp seen t hm []).2.1
        refine (h1.comp h2).mono_src ?_
        rintro x (rfl | hx)
        · exact Or.inl (List.mem_cons_self _ _)
        · exact Or.inl (List.mem_cons_of_mem _ hx)

theorem invalidateF_post : ∀ (fuel : Nat) (g : ModuleGraph) (modKey : Nat) (seen : List Nat)
    (t : Nat) (hm : Bool) (bnds : List Nat),
    InvPost g (fun x => x = modKey) seen t hm (invalidateF fuel g modKey seen t hm bnds) := by
  intro fuel
  induction fuel with
  | zero =>
    intro g modKey seen t hm bnds
    exact InvPost.nil g _ seen t hm
  | succ fuel' ih =>
    intro g modKey seen t hm bnds
    by_cases hs : modKey ∈ seen
    · have hbody : invalidateF (Nat.succ fuel') g modKey seen t hm bnds = (g, seen, []) := by
        simp [invalidateF, hs]
      rw [hbody]
      exact InvPost.nil g _ seen t hm
    · rcases hv : findNode g modKey with _ | v
      · have hbody : invalidateF (Nat.succ fuel') g modKey seen t hm bnds = (g, seen, []) := by
          simp [invalidateF, hs, hv]
        rw [hbody]
        exact InvPost.nil g _ seen t hm
      · by_cases hb : modKey ∈ bnds
        · have hbody : invalidateF (Nat.succ fuel') g modKey seen t hm bnds =
              (setNode g modKey (v.clearArtifacts t hm), seen ++ [modKey], [modKey]) := by
            simp [invalidateF, hs, hv, hb]
          rw [hbody]
          exact InvPost.clearStep hs hv
        · have hbody : invalidateF (Nat.succ fuel') g modKey seen t hm bnds =
              (let r := invalidateListGo (invalidateF fuel') modKey
                (setNode g modKey (v.clearArtifacts t hm)) v.importers (seen ++ [modKey]) t hm
               (r.1, r.2.1, modKey :: r.2.2)) := by
            simp [invalidateF, hs, hv, hb]
          rw [hbody]
          have hhead := @InvPost.clearStep _ _ _ _ t hm hs hv
          have hrest := invalidateListGo_post (invalidateF fuel') modKey t hm
            (fun g' k' s' => ih g' k' s' t hm []) v.importers
            (setNode g modKey (v.clearArtifacts t hm)) (seen ++ [modKey])
          refine (hhead.comp hrest).mono_src ?_
          rintro x (rfl | hx)
          · exact Or.inl rfl
          · exact Or.inr ⟨(modKey, v), alookup_mem hv, hx⟩

/-- A fresh, present entry node is always among the visited nodes. -/
theorem invalidateF_entry_mem {fuel' : Nat} {g : ModuleGraph} {modKey : Nat}
    {seen : List Nat} {t : Nat} {hm : Bool} {bnds : List Nat} {v : ModuleNode}
    (hs : modKey ∉ seen) (hv : findNode g modKey = some v) :
    modKey ∈ (invalidateF (Nat.succ fuel') g modKey seen t hm bnds).2.2 := by
  by_cases hb : modKey ∈ bnds <;> simp [invalidateF, hs, hv, hb]

theorem invalidateSeq_post (t : Nat) :
    ∀ (keys : List Nat) (g : ModuleGraph) (seen : List Nat),
      InvPost g (fun x => x ∈ keys) seen t false (invalidateSeq g keys seen t) := by
  intro keys
  induction keys with
  | nil =>
    intro g seen
    exact InvPost.nil g _ seen t false
  | cons k rest ih =>
    intro g seen
    have hbody : invalidateSeq g (k :: rest) seen t =
        (let r := g.invalidateModule k seen t false []
         let r2 := invalidateSeq r.1 rest r.2.1 t
         (r2.1, r2.2.1, r.2.2 ++ r2.2.2)) := by
      simp [invalidateSeq]
    rw [hbody]
    have h1 : InvPost g (fun x => x = k) seen t false (g.invalidateModule k seen t false []) :=
      invalidateF_post _ g k seen t false []
    have h2 := ih (g.invalidateModule k seen t false []).1
      (g.invalidateModule k seen t false []).2.1
    refine (h1.comp h2).mono_src ?_
    rintro x (rfl | hx)
    · exact Or.inl (List.mem_cons_self _ _)
    · exact Or.inl (List.mem_cons_of_mem _ hx)

theorem invalidateSeq_covers (t : Nat) :
    ∀ (keys : List Nat) (g : ModuleGraph) (seen : List Nat),
      (∀ k ∈ keys, (findNode g k).isSome) →
      ∀ k ∈ keys, k ∈ (invalidateSeq g keys seen t).2.1 := by
  intro keys
  induction keys with
  | nil =>
    intro g seen _ k hk
    cases hk
  | cons k0 rest ih =>
    intro g seen hpres k' hk'
    have hbody : invalidateSeq g (k0 :: rest) seen t =
        (let r := g.invalidateModule k0 seen t false []
         let r2 := invalidateSeq r.1 rest r.2.1 t
         (r2.1, r2.2.1, r.2.2 ++ r2.2.2)) := by
      simp [invalidateSeq]
    rw [hbody]
    have h1 : InvPost g (fun x => x = k0) seen t false
        (g.invalidateModule k0 seen t false []) :=
      invalidateF_post _ g k0 seen t false []
    have h2 := invalidateSeq_post t rest (g.invalidateModule k0 seen t false []).1
      (g.invalidateModule k0 seen t false []).2.1
    rcases List.mem_cons.mp hk' with rfl | hk'
    · -- the head key ends up in the intermediate seen set, which is a
      -- prefix of the final one
      have hk0 : k' ∈ (g.invalidateModule k' seen t false []).2.1 := by
        by_cases hs : k' ∈ seen
        · rw [h1.seen_eq]
          exact List.mem_append.mpr (Or.inl hs)
        · rcases Option.isSome_iff_exists.mp (hpres k' (List.mem_cons_self _ _)) with ⟨v, hv⟩
          rw [h1.seen_eq]
          exact List.mem_append.mpr
            (Or.inr (@invalidateF_entry_mem g.nodes.length _ _ _ _ _ _ _ hs hv))
      rw [h2.seen_eq]
      exact List.mem_append.mpr (Or.inl hk0)
    · -- a later key: still present after the head invalidation
      refine ih (g.invalidateModule k0 seen t false []).1
        (g.invalidateModule k0 seen t false []).2.1 ?_ k' hk'
      intro j hj
      rcases Option.isSome_iff_exists.mp (hpres j (List.mem_cons_of_mem _ hj)) with ⟨v, hv⟩
      rw [h1.lookup j v hv]
      rfl

theorem clearArtifacts_lastHMR_cases (v : ModuleNode) (t : Nat) (hm : Bool) :
    (v.clearArtifacts t hm).lastHMRTimestamp = v.lastHMRTimestamp ∨
    (v.clearArtifacts t hm).lastHMRTimestamp = t := by
  cases hm
  · exact Or.inl rfl
  · exact Or.inr rfl

theorem clearArtifacts_lastInv_cases (v : ModuleNode) (t : Nat) (hm : Bool) :
    (v.clearArtifacts t hm).lastInvalidationTimestamp = v.lastInvalidationTimestamp ∨
    (v.clearArtifacts t hm).lastInvalidationTimestamp = t := by
  cases hm
  · exact Or.inr rfl
  · exact Or.inl rfl

/-- Timestamp evolution under one invalidation walk: every node keeps its
timestamps or receives the walk's timestamp, stated both for lookups and
for raw store membership. -/
theorem InvPost.timestamps {g : ModuleGraph} {src : Nat → Prop} {seen : List Nat}
    {t : Nat} {hm : Bool} {r : ModuleGraph × List Nat × List Nat}
    (h : InvPost g src seen t hm r) :
    (∀ j v, findNode g j = some v → ∃ v', findNode r.1 j = some v' ∧
      (v'.lastHMRTimestamp = v.lastHMRTimestamp ∨ v'.lastHMRTimestamp = t) ∧
      (v'.lastInvalidationTimestamp = v.lastInvalidationTimestamp ∨
        v'.lastInvalidationTimestamp = t)) ∧
    (∀ p ∈ r.1.nodes, ∃ q ∈ g.nodes,
      (p.2.lastHMRTimestamp = q.2.lastHMRTimestamp ∨ p.2.lastHMRTimestamp = t) ∧
      (p.2.lastInvalidationTimestamp = q.2.lastInvalidationTimestamp ∨
        p.2.lastInvalidationTimestamp = t)) := by
  constructor
  · intro j v hv
    have hlk := h.lookup j v hv
    by_cases hj : j ∈ r.2.2
    · rw [if_pos hj] at hlk
      exact ⟨_, hlk, clearArtifacts_lastHMR_cases v t hm, clearArtifacts_lastInv_cases v t hm⟩
    · rw [if_neg hj] at hlk
      exact ⟨v, hlk, Or.inl rfl, Or.inl rfl⟩
  · intro p hp
    obtain ⟨q, hq, _, hv⟩ := h.evolve p hp
    rcases hv with hv | hv
    · exact ⟨q, hq, Or.inl (by rw [hv]), Or.inl (by rw [hv])⟩
    · refine ⟨q, hq, ?_, ?_⟩
      · rw [hv]
        exact clearArtifacts_lastHMR_cases q.2 t hm
      · rw [hv]
        exact clearArtifacts_lastInv_cases q.2 t hm

theorem applyOp_step (g : ModuleGraph) (op : GraphOp) :
    (∀ j v, findNode g j = some v → ∃ v', findNode (applyOp g op) j = some v' ∧
      (v'.lastHMRTimestamp = v.lastHMRTimestamp ∨ v'.lastHMRTimestamp = op.time) ∧
      (v'.lastInvalidationTimestamp = v.lastInvalidationTimestamp ∨
        v'.lastInvalidationTimestamp = op.time)) ∧
    (∀ p ∈ (applyOp g op).nodes, ∃ q ∈ g.nodes,
      (p.2.lastHMRTimestamp = q.2.lastHMRTimestamp ∨ p.2.lastHMRTimestamp = op.time) ∧
      (p.2.lastInvalidationTimestamp = q.2.lastInvalidationTimestamp ∨
        p.2.lastInvalidationTimestamp = op.time)) := by
  cases op with
  | invalidate k t hm bnds =>
    exact (invalidateF_post (g.nodes.length + 1) g k [] t hm bnds).timestamps
  | invalidateAll t =>
    exact (invalidateSeq_post t (g.idToModuleMap.map Prod.snd) g []).timestamps
  | fileChange f t =>
    cases hmods : g.getModulesByFile f with
    | none =>
      have happ : applyOp g (GraphOp.fileChange f t) = g := by
        simp [applyOp, ModuleGraph.onFileChange, hmods]
      rw [happ]
      exact ⟨fun j v hv => ⟨v, hv, Or.inl rfl, Or.inl rfl⟩,
        fun p hp => ⟨p, hp, Or.inl rfl, Or.inl rfl⟩⟩
    | some mods =>
      have happ : applyOp g (GraphOp.fileChange f t) = (invalidateSeq g mods [] t).1 := by
        simp [applyOp, ModuleGraph.onFileChange, hmods]
      rw [happ]
      exact (invalidateSeq_post t mods g []).timestamps

/-- C9: For every node, `lastHMRTimestamp` and `lastInvalidationTimestamp`
never decrease across any sequence of graph operations (`invalidateModule`,
`invalidateAll`, `onFileChange`), provided the operations' `Date.now()`
timestamps are themselves nondecreasing and dominate the timestamps already
stored in the graph: every assignment writes the current clock value, which
is at least the node's previous value.  Every intermediate state is
`runOps` over a prefix, so the endpoint statement covers each individual
assignment. -/
theorem C9_timestamps_never_decrease :
    ∀ (ops : List GraphOp) (g : ModuleGraph) (c : Nat),
      (∀ p ∈ g.nodes, p.2.lastHMRTimestamp ≤ c ∧ p.2.lastInvalidationTimestamp ≤ c) →
      List.Chain (· ≤ ·) c (ops.map GraphOp.time) →
      ∀ j v, findNode g j = some v →
        ∃ v', findNode (runOps g ops) j = some v' ∧
          v.lastHMRTimestamp ≤ v'.lastHMRTimestamp ∧
          v.lastInvalidationTimestamp ≤ v'.lastInvalidationTimestamp := by
  intro ops
  induction ops with
  | nil =>
    intro g c hb _ j v hv
    exact ⟨v, hv, le_refl _, le_refl _⟩
  | cons op rest ih =>
    intro g c hb hchain j v hv
    rw [List.map_cons, List.chain_cons] at hchain
    obtain ⟨hct, hchain'⟩ := hchain
    obtain ⟨v1, hv1, hHMR1, hInv1⟩ := (applyOp_step g op).1 j v hv
    have hb' : ∀ p ∈ (applyOp g op).nodes,
        p.2.lastHMRTimestamp ≤ op.time ∧ p.2.lastInvalidationTimestamp ≤ op.time := by
      intro p hp
      obtain ⟨q, hq, hH, hI⟩ := (applyOp_step g op).2 p hp
      obtain ⟨hqH, hqI⟩ := hb q hq
      constructor
      · rcases hH with h | h
        · rw [h]; exact le_trans hqH hct
        · rw [h]
      · rcases hI with h | h
        · rw [h]; exact le_trans hqI hct
        · rw [h]
    obtain ⟨v', hv', hH', hI'⟩ := ih (applyOp g op) op.time hb' hchain' j v1 hv1
    obtain ⟨hvH, hvI⟩ := hb (j, v) (alookup_mem hv)
    refine ⟨v', hv', ?_, ?_⟩
    · rcases hHMR1 with h | h
      · rw [h] at hH'
        exact hH'
      · have hle : v.lastHMRTimestamp ≤ v1.lastHMRTimestamp := by
          rw [h]
          exact le_trans hvH hct
        exact le_trans hle hH'
    · rcases hInv1 with h | h
      · rw [h] at hI'
        exact hI'
      · have hle : v.lastInvalidationTimestamp ≤ v1.lastInvalidationTimestamp := by
          rw [h]
          exact le_trans hvI hct
        exact le_trans hle hI'

/-- C9 witness: a concrete node, an invalidation followed by a global
invalidation with increasing timestamps. -/
theorem C9_witness :
    ∃ v', findNode (runOps gW9 [GraphOp.invalidate 0 3 true [], GraphOp.invalidateAll 5]) 0 =
        some v' ∧
      w9node.lastHMRTimestamp ≤ v'.lastHMRTimestamp ∧
      w9node.lastInvalidationTimestamp ≤ v'.lastInvalidationTimestamp :=
  C9_timestamps_never_decrease [GraphOp.invalidate 0 3 true [], GraphOp.invalidateAll 5]
    gW9 0 (by decide) (by simp [List.chain_cons, GraphOp.time]) 0 w9node (by decide)

/-- C7: invalidating a node not in the seen set clears its
`transformResult`, `ssrTransformResult`, `ssrModule` and `ssrError`, and
leaves `info`, `meta` and all import/export edge bookkeeping untouched;
moreover the walk never changes any node except by this artifact-clearing
step. -/
theorem C7_invalidate_clears_artifacts_keeps_bookkeeping
    {g : ModuleGraph} {modKey : Nat} {seen : List Nat} {t : Nat} {hm : Bool}
    {bnds : List Nat} {v : ModuleNode}
    (hs : modKey ∉ seen) (hv : findNode g modKey = some v) :
    (findNode (g.invalidateModule modKey seen t hm bnds).1 modKey =
        some (v.clearArtifacts t hm) ∧
      (v.clearArtifacts t hm).transformResult = none ∧
      (v.clearArtifacts t hm).ssrTransformResult = none ∧
      (v.clearArtifacts t hm).ssrModule = none ∧
      (v.clearArtifacts t hm).ssrError = none ∧
      (v.clearArtifacts t hm).info = v.info ∧
      (v.clearArtifacts t hm).meta = v.meta ∧
      (v.clearArtifacts t hm).importers = v.importers ∧
      (v.clearArtifacts t hm).clientImportedModules = v.clientImportedModules ∧
      (v.clearArtifacts t hm).ssrImportedModules = v.ssrImportedModules ∧
      (v.clearArtifacts t hm).acceptedHmrDeps = v.acceptedHmrDeps ∧
      (v.clearArtifacts t hm).acceptedHmrExports = v.acceptedHmrExports ∧
      (v.clearArtifacts t hm).importedBindings = v.importedBindings) ∧
    (∀ j w, findNode g j = some w →
      findNode (g.invalidateModule modKey seen t hm bnds).1 j = some w ∨
      findNode (g.invalidateModule modKey seen t hm bnds).1 j =
        some (w.clearArtifacts t hm)) := by
  have hpost : InvPost g (fun x => x = modKey) seen t hm
      (g.invalidateModule modKey seen t hm bnds) :=
    invalidateF_post (g.nodes.length + 1) g modKey seen t hm bnds
  have hmem : modKey ∈ (g.invalidateModule modKey seen t hm bnds).2.2 :=
    @invalidateF_entry_mem g.nodes.length _ _ _ _ _ _ _ hs hv
  have hlk := hpost.lookup modKey v hv
  rw [if_pos hmem] at hlk
  refine ⟨⟨hlk, rfl, rfl, rfl, rfl, rfl, rfl, rfl, rfl, rfl, rfl, rfl, rfl⟩, ?_⟩
  intro j w hw
  have hlkj := hpost.lookup j w hw
  by_cases hj : j ∈ (g.invalidateModule modKey seen t hm bnds).2.2
  · rw [if_pos hj] at hlkj
    exact Or.inr hlkj
  · rw [if_neg hj] at hlkj
    exact Or.inl hlkj

/-- C7 witness: the concrete one-node graph `gW7`. -/
theorem C7_witness :
    (findNode (gW7.invalidateModule 0 [] 11 false []).1 0 =
        some (w7node.clearArtifacts 11 false) ∧
      (w7node.clearArtifacts 11 false).transformResult = none ∧
      (w7node.clearArtifacts 11 false).ssrTransformResult = none ∧
      (w7node.clearArtifacts 11 false).ssrModule = none ∧
      (w7node.clearArtifacts 11 false).ssrError = none ∧
      (w7node.clearArtifacts 11 false).info = w7node.info ∧
      (w7node.clearArtifacts 11 false).meta = w7node.meta ∧
      (w7node.clearArtifacts 11 false).importers = w7node.importers ∧
      (w7node.clearArtifacts 11 false).clientImportedModules =
        w7node.clientImportedModules ∧
      (w7node.clearArtifacts 11 false).ssrImportedModules = w7node.ssrImportedModules ∧
      (w7node.clearArtifacts 11 false).acceptedHmrDeps = w7node.acceptedHmrDeps ∧
      (w7node.clearArtifacts 11 false).acceptedHmrExports = w7node.acceptedHmrExports ∧
      (w7node.clearArtifacts 11 false).importedBindings = w7node.importedBindings) ∧
    (∀ j w, findNode gW7 j = some w →
      findNode (gW7.invalidateModule 0 [] 11 false []).1 j = some w ∨
      findNode (gW7.invalidateModule 0 [] 11 false []).1 j =
        some (w.clearArtifacts 11 false)) :=
  C7_invalidate_clears_artifacts_keeps_bookkeeping (by decide) (by decide)

/-- C6: `invalidateAll` generates one timestamp and, with a single shared
seen set, invalidates every node registered in the id index exactly once:
the visit list is duplicate-free and equals the final seen set, contains
every id-index node, and each node of the graph is artifact-cleared exactly
when visited. -/
theorem C6_invalidateAll_visits_each_registered_once
    (g : ModuleGraph) (t : Nat)
    (hpres : ∀ p ∈ g.idToModuleMap, (findNode g p.2).isSome) :
    (g.invalidateAll t).2.2.Nodup ∧
    (g.invalidateAll t).2.1 = (g.invalidateAll t).2.2 ∧
    (∀ p ∈ g.idToModuleMap, p.2 ∈ (g.invalidateAll t).2.2) ∧
    (∀ j v, findNode g j = some v →
      findNode (g.invalidateAll t).1 j =
        some (if j ∈ (g.invalidateAll t).2.2 then v.clearArtifacts t false else v)) := by
  have hpost := invalidateSeq_post t (g.idToModuleMap.map Prod.snd) g []
  have hseen : (g.invalidateAll t).2.1 = (g.invalidateAll t).2.2 := by
    have := hpost.seen_eq
    simpa using this
  refine ⟨hpost.nodup, hseen, ?_, hpost.lookup⟩
  intro p hp
  have hcov := invalidateSeq_covers t (g.idToModuleMap.map Prod.snd) g []
    (by
      intro k hk
      obtain ⟨q, hq, hqk⟩ := List.mem_map.mp hk
      exact hqk ▸ hpres q hq)
    p.2 (List.mem_map.mpr ⟨p, hp, rfl⟩)
  rw [← hseen]
  exact hcov

/-- C6 witness: the concrete one-entry graph `gW9`. -/
theorem C6_witness :
    (gW9.invalidateAll 4).2.2.Nodup ∧
    (gW9.invalidateAll 4).2.1 = (gW9.invalidateAll 4).2.2 ∧
    (∀ p ∈ gW9.idToModuleMap, p.2 ∈ (gW9.invalidateAll 4).2.2) ∧
    (∀ j v, findNode gW9 j = some v →
      findNode (gW9.invalidateAll 4).1 j =
        some (if j ∈ (gW9.invalidateAll 4).2.2 then v.clearArtifacts 4 false else v)) :=
  C6_invalidateAll_visits_each_registered_once gW9 4 (by decide)

/-- C1 counterexample: in the chain `A → B → C` with `B` accepting `C` as
an HMR dependency, `invalidateModule(C, isHmr := true, timestamp := 5)`
does not set `B.lastHMRTimestamp` to 5 — the accepting importer is skipped
entirely, its timestamp stays 0. -/
theorem C1_counterexample :
    (findNode ((chainGraph cA cB cC).invalidateModule 2 [] 5 true []).1 1).map
        ModuleNode.lastHMRTimestamp = some 0 ∧
    ¬ (findNode ((chainGraph cA cB cC).invalidateModule 2 [] 5 true []).1 1).map
        ModuleNode.lastHMRTimestamp = some 5 := by
  constructor <;> decide

/-- C1 (amended): chain `A → B → C`.  If `B.acceptedHmrDeps` contains `C`,
invalidating `C` with `isHmr = true` clears `C` and stops: `B` is entirely
untouched (its `lastHMRTimestamp` is not modified), `B`'s importers are not
visited and `A` is untouched.  If `B` does not accept `C` (and `A` does not
accept `B`), `C`, `B` and then `A` are all invalidated. -/
theorem C1_amended_hmr_acceptance_stops_walk (A B C : ModuleNode) (t : Nat)
    (hCimp : C.importers = [1]) (hBimp : B.importers = [0]) (hAimp : A.importers = []) :
    (2 ∈ B.acceptedHmrDeps →
      (chainGraph A B C).invalidateModule 2 [] t true [] =
        (setNode (chainGraph A B C) 2 (C.clearArtifacts t true), [2], [2]) ∧
      findNode ((chainGraph A B C).invalidateModule 2 [] t true []).1 1 = some B ∧
      findNode ((chainGraph A B C).invalidateModule 2 [] t true []).1 0 = some A) ∧
    (2 ∉ B.acceptedHmrDeps → 1 ∉ A.acceptedHmrDeps →
      ((chainGraph A B C).invalidateModule 2 [] t true []).2.2 = [2, 1, 0] ∧
      findNode ((chainGraph A B C).invalidateModule 2 [] t true []).1 2 =
        some (C.clearArtifacts t true) ∧
      findNode ((chainGraph A B C).invalidateModule 2 [] t true []).1 1 =
        some (B.clearArtifacts t true) ∧
      findNode ((chainGraph A B C).invalidateModule 2 [] t true []).1 0 =
        some (A.clearArtifacts t true)) := by
  constructor
  · intro hacc
    refine ⟨?_, ?_, ?_⟩ <;>
      simp [ModuleGraph.invalidateModule, chainGraph, invalidateF, invalidateListGo,
        findNode, setNode, alookup, aset, hCimp, hacc]
  · intro haccB haccA
    refine ⟨?_, ?_, ?_, ?_⟩ <;>
      simp [ModuleGraph.invalidateModule, chainGraph, invalidateF, invalidateListGo,
        findNode, setNode, alookup, aset, hCimp, hBimp, hAimp, haccB, haccA]

/-- C1 witness: the concrete chain `cA, cB, cC` (where `cB` accepts `cC`)
at timestamp 7. -/
theorem C1_witness :
    (2 ∈ cB.acceptedHmrDeps →
      (chainGraph cA cB cC).invalidateModule 2 [] 7 true [] =
        (setNode (chainGraph cA cB cC) 2 (cC.clearArtifacts 7 true), [2], [2]) ∧
      findNode ((chainGraph cA cB cC).invalidateModule 2 [] 7 true []).1 1 = some cB ∧
      findNode ((chainGraph cA cB cC).invalidateModule 2 [] 7 true []).1 0 = some cA) ∧
    (2 ∉ cB.acceptedHmrDeps → 1 ∉ cA.acceptedHmrDeps →
      ((chainGraph cA cB cC).invalidateModule 2 [] 7 true []).2.2 = [2, 1, 0] ∧
      findNode ((chainGraph cA cB cC).invalidateModule 2 [] 7 true []).1 2 =
        some (cC.clearArtifacts 7 true) ∧
      findNode ((chainGraph cA cB cC).invalidateModule 2 [] 7 true []).1 1 =
        some (cB.clearArtifacts 7 true) ∧
      findNode ((chainGraph cA cB cC).invalidateModule 2 [] 7 true []).1 0 =
        some (cA.clearArtifacts 7 true)) :=
  C1_amended_hmr_acceptance_stops_walk cA cB cC 7 (by decide) (by decide) (by decide)

/-- C3: two raw URLs whose resolution yields the same resolved id are
served by the identical node: the first call registers the node in the id
index under that id, the second finds it there (or both find the same
pending-cache entry). -/
theorem C3_same_resolved_id_identical_node
    {g g1 g2 : ModuleGraph} {u1 u2 : String} {b s1 s2 : Bool} {k1 k2 : Nat} {rid : String}
    (hwf : GraphWF g) (hpc : PendConsistent g)
    (hr1 : resolvedIdOf g (stripUrl u1) b = Except.ok rid)
    (hr2 : resolvedIdOf g (stripUrl u2) b = Except.ok rid)
    (h1 : g.ensureEntryFromUrl u1 b s1 = (Except.ok k1, g1))
    (h2 : g1.ensureEntryFromUrl u2 b s2 = (Except.ok k2, g2)) :
    k1 = k2 := by
  obtain ⟨rid1, hra, spec1⟩ := ensure_ok_spec hwf hpc h1
  have hrid1 : rid1 = rid := by
    rw [hr1] at hra
    exact (Except.ok.inj hra).symm
  obtain ⟨rid2, hrb, spec2⟩ := ensure_ok_spec spec1.wf spec1.pend h2
  have hcongr : resolvedIdOf g1 (stripUrl u2) b = resolvedIdOf g (stripUrl u2) b :=
    resolvedIdOf_congr spec1.resolver_eq _ _
  have hrid2 : rid2 = rid := by
    rw [hcongr, hr2] at hrb
    exact (Except.ok.inj hrb).symm
  have hself1 := spec1.id_self
  rw [hrid1] at hself1
  have hself2 := spec2.id_self
  rw [hrid2] at hself2
  have hk1 : alookup g2.idToModuleMap rid = some k1 := spec2.id_stable _ _ hself1
  exact Option.some.inj (hk1.symm.trans hself2)

/-- C3 witness: `/App` and `/App.vue` both resolve to `/abs/App.vue` under
`gC3`; both `ensureEntryFromUrl` calls return node 0. -/
theorem C3_witness :
    (gC3.ensureEntryFromUrl "/App" false true).1 = Except.ok 0 ∧
    ((gC3.ensureEntryFromUrl "/App" false true).2.ensureEntryFromUrl
      "/App.vue" false true).1 = Except.ok 0 ∧ (0 : Nat) = 0 := by
  refine ⟨rfl, rfl, ?_⟩
  have hwf : GraphWF gC3 :=
    ⟨fun p hp => absurd hp (List.not_mem_nil p), List.nodup_nil,
      fun p hp => absurd hp (List.not_mem_nil p),
      fun p hp => absurd hp (List.not_mem_nil p),
      fun p hp => absurd hp (List.not_mem_nil p)⟩
  have hpc : PendConsistent gC3 := by
    intro b p hp k hk
    cases b <;> exact absurd hp (List.not_mem_nil p)
  have hr1 : resolvedIdOf gC3 (stripUrl "/App") false = Except.ok "/abs/App.vue" := by
    decide
  have hr2 : resolvedIdOf gC3 (stripUrl "/App.vue") false = Except.ok "/abs/App.vue" := by
    decide
  have h1 : gC3.ensureEntryFromUrl "/App" false true =
      (Except.ok 0, (gC3.ensureEntryFromUrl "/App" false true).2) := rfl
  have h2 : (gC3.ensureEntryFromUrl "/App" false true).2.ensureEntryFromUrl
      "/App.vue" false true =
      (Except.ok 0, ((gC3.ensureEntryFromUrl "/App" false true).2.ensureEntryFromUrl
        "/App.vue" false true).2) := rfl
  exact C3_same_resolved_id_identical_node hwf hpc hr1 hr2 h1 h2

/-- C5 counterexample: the claim says a null resolver result makes
`ensureEntryFromUrl` and `resolveUrl` fail; in the code `resolved?.id ||
url` falls back to the raw URL as the resolved id and a node is created. -/
theorem C5_counterexample :
    (gnull.ensureEntryFromUrl "/a" false true).1 = Except.ok 0 ∧
    (findNode (gnull.ensureEntryFromUrl "/a" false true).2 0).map ModuleNode.id =
      some (some "/a") ∧
    (gnull.resolveUrl "/a" false).1 = Except.ok ("/a", "/a", none) := by
  exact ⟨by decide, by decide, by decide⟩

/-- C5 (amended): when the resolver rejects, `ensureEntryFromUrl` and
`resolveUrl` fail; the url, id, file and node stores gain no entry for the
attempt, the rejection is cached under the raw URL (the source keeps the
rejected promise in the pending map), and a second call fails from that
cache without invoking the resolver again and without any state change.  A
null (non-rejecting) resolver result does not fail: the raw URL itself is
used as the resolved id (see the counterexample). -/
theorem C5_amended_rejection_fails_without_partial_entries
    {g : ModuleGraph} {u : String} {b s : Bool}
    (hp : g._getUnresolvedUrlToModule (stripUrl u) b = none)
    (hres : g.resolveId (stripUrl u) b = Except.error ()) :
    (g.ensureEntryFromUrl u b s).1 = Except.error () ∧
    (g.ensureEntryFromUrl u b s).2.urlToModuleMap = g.urlToModuleMap ∧
    (g.ensureEntryFromUrl u b s).2.idToModuleMap = g.idToModuleMap ∧
    (g.ensureEntryFromUrl u b s).2.fileToModulesMap = g.fileToModulesMap ∧
    (g.ensureEntryFromUrl u b s).2.nodes = g.nodes ∧
    (g.ensureEntryFromUrl u b s).2.resolveCount = g.resolveCount + 1 ∧
    (g.ensureEntryFromUrl u b s).2._getUnresolvedUrlToModule (stripUrl u) b =
      some Pending.failed ∧
    (g.ensureEntryFromUrl u b s).2.ensureEntryFromUrl u b s =
      (Except.error (), (g.ensureEntryFromUrl u b s).2) ∧
    (g.resolveUrl u b).1 = Except.error () ∧
    ((g.ensureEntryFromUrl u b s).2.resolveUrl u b).1 = Except.error () := by
  have hbody : g.ensureEntryFromUrl u b s =
      (Except.error (), ({ g with resolveCount := g.resolveCount + 1
        })._setUnresolvedUrlToModule (stripUrl u) Pending.failed b) := by
    unfold ModuleGraph.ensureEntryFromUrl ModuleGraph._ensureEntryFromUrl
    dsimp only
    rw [hp]
    dsimp only
    unfold ModuleGraph._resolveUrl
    dsimp only
    rw [hres]
  have hpendS : (({ g with resolveCount := g.resolveCount + 1
      })._setUnresolvedUrlToModule (stripUrl u) Pending.failed
        b)._getUnresolvedUrlToModule (stripUrl u) b = some Pending.failed := by
    unfold ModuleGraph._getUnresolvedUrlToModule
    rw [pendMap_setPend_same]
    exact alookup_aset_self _ _ _
  have hpend' : (g.ensureEntryFromUrl u b s).2._getUnresolvedUrlToModule (stripUrl u) b =
      some Pending.failed := by
    rw [hbody]
    exact hpendS
  have hcachedE : ∀ (g0 : ModuleGraph),
      g0._getUnresolvedUrlToModule (stripUrl u) b = some Pending.failed →
      g0.ensureEntryFromUrl u b s = (Except.error (), g0) := by
    intro g0 hc
    unfold ModuleGraph.ensureEntryFromUrl ModuleGraph._ensureEntryFromUrl
    dsimp only
    rw [hc]
  have hcachedR : ∀ (g0 : ModuleGraph),
      g0._getUnresolvedUrlToModule (stripUrl u) b = some Pending.failed →
      (g0.resolveUrl u b).1 = Except.error () := by
    intro g0 hc
    unfold ModuleGraph.resolveUrl
    dsimp only
    rw [hc]
  have h2nd : (g.ensureEntryFromUrl u b s).2.ensureEntryFromUrl u b s =
      (Except.error (), (g.ensureEntryFromUrl u b s).2) :=
    hcachedE _ hpend'
  have hru : (g.resolveUrl u b).1 = Except.error () := by
    unfold ModuleGraph.resolveUrl
    dsimp only
    rw [hp]
    dsimp only
    unfold ModuleGraph._resolveUrl
    dsimp only
    rw [hres]
  have hru2 : ((g.ensureEntryFromUrl u b s).2.resolveUrl u b).1 = Except.error () :=
    hcachedR _ hpend'
  refine ⟨by rw [hbody], ?_, ?_, ?_, ?_, ?_, hpend', h2nd, hru, hru2⟩
  · rw [hbody, setPend_urlToModuleMap]
  · rw [hbody, setPend_idToModuleMap]
  · rw [hbody, setPend_fileToModulesMap]
  · rw [hbody, setPend_nodes]
  · rw [hbody, setPend_resolveCount]

/-- C5 witness: the always-rejecting resolver on the empty registry. -/
theorem C5_witness :
    (grej.ensureEntryFromUrl "/a" false true).1 = Except.error () ∧
    (grej.ensureEntryFromUrl "/a" false true).2.urlToModuleMap = grej.urlToModuleMap ∧
    (grej.ensureEntryFromUrl "/a" false true).2.idToModuleMap = grej.idToModuleMap ∧
    (grej.ensureEntryFromUrl "/a" false true).2.fileToModulesMap = grej.fileToModulesMap ∧
    (grej.ensureEntryFromUrl "/a" false true).2.nodes = grej.nodes ∧
    (grej.ensureEntryFromUrl "/a" false true).2.resolveCount = grej.resolveCount + 1 ∧
    (grej.ensureEntryFromUrl "/a" false true).2._getUnresolvedUrlToModule
      (stripUrl "/a") false = some Pending.failed ∧
    (grej.ensureEntryFromUrl "/a" false true).2.ensureEntryFromUrl "/a" false true =
      (Except.error (), (grej.ensureEntryFromUrl "/a" false true).2) ∧
    (grej.resolveUrl "/a" false).1 = Except.error () ∧
    ((grej.ensureEntryFromUrl "/a" false true).2.resolveUrl "/a" false).1 =
      Except.error () :=
  C5_amended_rejection_fails_without_partial_entries (by decide) (by decide)

/-- The branch structure of the extension-reconciliation step, phrased the
way the spec states it: the splice happens exactly when the id differs, the
url is not virtual, and the query-stripped url does not already end with
the resolved id's extension (an empty extension always counts as a
suffix). -/
theorem spliceExt_spec (u rid : String) :
    ((¬ u = rid) ∧ u.toList.contains (Char.ofNat 0) = false ∧
      isPrefixOfChars "virtual:".toList u.toList = false ∧
      isSuffixOfChars (extname (cleanUrl rid)).toList (cleanUrl u).toList = false →
      spliceExt u rid = cleanUrl u ++ extname (cleanUrl rid) ++
        String.mk (u.toList.drop (cleanUrl u).toList.length)) ∧
    (u = rid ∨ u.toList.contains (Char.ofNat 0) = true ∨
      isPrefixOfChars "virtual:".toList u.toList = true ∨
      isSuffixOfChars (extname (cleanUrl rid)).toList (cleanUrl u).toList = true →
      spliceExt u rid = u) := by
  constructor
  · rintro ⟨hne, hnull, hvirt, hsuf⟩
    have hext : extname (cleanUrl rid) ≠ "" := by
      intro hext
      rw [hext] at hsuf
      simp [isSuffixOfChars, isPrefixOfChars] at hsuf
    have hC : (u != rid && ! (u.toList.contains (Char.ofNat 0)) &&
        ! (isPrefixOfChars "virtual:".toList u.toList)) = true := by
      rw [hnull, hvirt, bne_iff_ne.mpr hne]
      rfl
    unfold spliceExt
    dsimp only
    rw [if_pos hC, if_pos (bne_iff_ne.mpr hext), if_pos (by rw [hsuf]; rfl)]
  · intro hcase
    unfold spliceExt
    dsimp only
    rcases hcase with rfl | hnull | hvirt | hsuf
    · rw [if_neg (by simp)]
    · have hc : ¬ ((u != rid && ! (u.toList.contains (Char.ofNat 0)) &&
          ! (isPrefixOfChars "virtual:".toList u.toList)) = true) := by
        intro hcc
        rw [hnull] at hcc
        simp at hcc
      rw [if_neg hc]
    · have hc : ¬ ((u != rid && ! (u.toList.contains (Char.ofNat 0)) &&
          ! (isPrefixOfChars "virtual:".toList u.toList)) = true) := by
        intro hcc
        rw [hvirt] at hcc
        simp at hcc
      rw [if_neg hc]
    · by_cases hC : (u != rid && ! (u.toList.contains (Char.ofNat 0)) &&
          ! (isPrefixOfChars "virtual:".toList u.toList)) = true
      · rw [if_pos hC]
        by_cases hext : extname (cleanUrl rid) = ""
        · rw [if_neg (by simp [hext])]
        · have hc : ¬ ((! (isSuffixOfChars (extname (cleanUrl rid)).toList
              (cleanUrl u).toList)) = true) := by
            intro hcc
            rw [hsuf] at hcc
            simp at hcc
          rw [if_pos (bne_iff_ne.mpr hext), if_neg hc]
      · rw [if_neg hC]

/-- C8: `resolveUrl` strips the timestamp and import markers and, when the
pending cache has no entry and the resolver answers, serves the
extension-reconciled URL: if the resolved id differs from the stripped URL,
the URL carries no null-byte marker and no `virtual:` scheme, and the
query-stripped URL does not already end with the resolved id's
(query-stripped) extension, the served URL is the query-stripped URL with
that extension appended followed by the remaining query suffix; otherwise
the stripped URL is returned unchanged, always alongside the resolved id
and the resolver's meta. -/
theorem C8_resolveUrl_extension_reconciliation
    {g : ModuleGraph} {url0 : String} {b : Bool} {ro : Option PartialResolvedId}
    (hp : g._getUnresolvedUrlToModule (stripUrl url0) b = none)
    (hres : g.resolveId (stripUrl url0) b = Except.ok ro) :
    (¬ stripUrl url0 = resolveIdFallback ro (stripUrl url0) ∧
      (stripUrl url0).toList.contains (Char.ofNat 0) = false ∧
      isPrefixOfChars "virtual:".toList (stripUrl url0).toList = false ∧
      isSuffixOfChars (extname (cleanUrl (resolveIdFallback ro (stripUrl url0)))).toList
        (cleanUrl (stripUrl url0)).toList = false →
      (g.resolveUrl url0 b).1 = Except.ok
        (cleanUrl (stripUrl url0) ++
          extname (cleanUrl (resolveIdFallback ro (stripUrl url0))) ++
          String.mk ((stripUrl url0).toList.drop (cleanUrl (stripUrl url0)).toList.length),
         resolveIdFallback ro (stripUrl url0), resolveIdMeta ro)) ∧
    (stripUrl url0 = resolveIdFallback ro (stripUrl url0) ∨
      (stripUrl url0).toList.contains (Char.ofNat 0) = true ∨
      isPrefixOfChars "virtual:".toList (stripUrl url0).toList = true ∨
      isSuffixOfChars (extname (cleanUrl (resolveIdFallback ro (stripUrl url0)))).toList
        (cleanUrl (stripUrl url0)).toList = true →
      (g.resolveUrl url0 b).1 = Except.ok
        (stripUrl url0, resolveIdFallback ro (stripUrl url0), resolveIdMeta ro)) := by
  have hbody : (g.resolveUrl url0 b).1 = Except.ok
      (spliceExt (stripUrl url0) (resolveIdFallback ro (stripUrl url0)),
       resolveIdFallback ro (stripUrl url0), resolveIdMeta ro) := by
    unfold ModuleGraph.resolveUrl
    dsimp only
    rw [hp]
    dsimp only
    unfold ModuleGraph._resolveUrl
    dsimp only
    rw [hres]
  constructor
  · intro hcond
    rw [hbody,
      (spliceExt_spec (stripUrl url0) (resolveIdFallback ro (stripUrl url0))).1 hcond]
  · intro hcase
    rw [hbody,
      (spliceExt_spec (stripUrl url0) (resolveIdFallback ro (stripUrl url0))).2 hcase]

/-- C8 witness: `/src/App?import&t=xxx` strips to `/src/App`, resolves to
`/abs/src/App.vue`, and is served as `/src/App.vue`. -/
theorem C8_witness :
    (¬ stripUrl "/src/App?t=1234567890123" =
        resolveIdFallback (some { id := "/abs/src/App.vue", meta := some 2 })
          (stripUrl "/src/App?t=1234567890123") ∧
      (stripUrl "/src/App?t=1234567890123").toList.contains (Char.ofNat 0) = false ∧
      isPrefixOfChars "virtual:".toList (stripUrl "/src/App?t=1234567890123").toList = false ∧
      isSuffixOfChars (extname (cleanUrl (resolveIdFallback
          (some { id := "/abs/src/App.vue", meta := some 2 })
          (stripUrl "/src/App?t=1234567890123")))).toList
        (cleanUrl (stripUrl "/src/App?t=1234567890123")).toList = false →
      (gC8.resolveUrl "/src/App?t=1234567890123" false).1 = Except.ok
        (cleanUrl (stripUrl "/src/App?t=1234567890123") ++
          extname (cleanUrl (resolveIdFallback
            (some { id := "/abs/src/App.vue", meta := some 2 })
            (stripUrl "/src/App?t=1234567890123"))) ++
          String.mk ((stripUrl "/src/App?t=1234567890123").toList.drop
            (cleanUrl (stripUrl "/src/App?t=1234567890123")).toList.length),
         resolveIdFallback (some { id := "/abs/src/App.vue", meta := some 2 })
           (stripUrl "/src/App?t=1234567890123"),
         resolveIdMeta (some { id := "/abs/src/App.vue", meta := some 2 }))) ∧
    (stripUrl "/src/App?t=1234567890123" =
        resolveIdFallback (some { id := "/abs/src/App.vue", meta := some 2 })
          (stripUrl "/src/App?t=1234567890123") ∨
      (stripUrl "/src/App?t=1234567890123").toList.contains (Char.ofNat 0) = true ∨
      isPrefixOfChars "virtual:".toList (stripUrl "/src/App?t=1234567890123").toList = true ∨
      isSuffixOfChars (extname (cleanUrl (resolveIdFallback
          (some { id := "/abs/src/App.vue", meta := some 2 })
          (stripUrl "/src/App?t=1234567890123")))).toList
        (cleanUrl (stripUrl "/src/App?t=1234567890123")).toList = true →
      (gC8.resolveUrl "/src/App?t=1234567890123" false).1 = Except.ok
        (stripUrl "/src/App?t=1234567890123",
         resolveIdFallback (some { id := "/abs/src/App.vue", meta := some 2 })
           (stripUrl "/src/App?t=1234567890123"),
         resolveIdMeta (some { id := "/abs/src/App.vue", meta := some 2 }))) :=
  C8_resolveUrl_extension_reconciliation (by decide) (by decide)

/-! ## The single-flight protocol: invariant and deduplication -/

theorem flightInv_step {n : Nat} {s s' : FlightState} (hi : FlightInv n s)
    (hs : FlightStep s s') : FlightInv n s' := by
  obtain ⟨hlen, hoff, hon⟩ := hi
  cases hs with
  | hitCache i s hget hpub =>
    refine ⟨?_, ?_, ?_⟩
    · show (s.tasks.set i TaskPhase.done).length = n
      rw [List.length_set]
      exact hlen
    · intro hfalse
      have h' : s.pendingPublished = false := hfalse
      rw [hpub] at h'
      exact Bool.noConfusion h'
    · intro _
      show s.resolverCalls = 1
      exact hon hpub
  | beginResolve i s hget hpub =>
    refine ⟨?_, ?_, ?_⟩
    · show (s.tasks.set i TaskPhase.publishedWork).length = n
      rw [List.length_set]
      exact hlen
    · intro hfalse
      have h' : (true : Bool) = false := hfalse
      exact Bool.noConfusion h'
    · intro _
      show s.resolverCalls + 1 = 1
      rw [(hoff hpub).1]
  | completeResolve i s hget =>
    refine ⟨?_, ?_, ?_⟩
    · show (s.tasks.set i TaskPhase.done).length = n
      rw [List.length_set]
      exact hlen
    · intro hfalse
      have h' : s.pendingPublished = false := hfalse
      have hmem : TaskPhase.publishedWork ∈ s.tasks := List.get?_mem hget
      have := (hoff h').2 _ hmem
      exact TaskPhase.noConfusion this
    · intro htrue
      exact hon htrue

theorem flightInv_reachable {n : Nat} {s : FlightState} (h : FlightReachable n s) :
    FlightInv n s := by
  induction h with
  | refl =>
    refine ⟨?_, ?_, ?_⟩
    · show (List.replicate n TaskPhase.start).length = n
      exact List.length_replicate _ _
    · intro _
      refine ⟨rfl, ?_⟩
      intro p hp
      exact List.eq_of_mem_replicate hp
    · intro hc
      exact Bool.noConfusion hc
  | tail _ hstep ih => exact flightInv_step ih hstep

/-- C4: in the single-threaded scheduling model of `_ensureEntryFromUrl`, a
cache-missing caller invokes the resolver and publishes the in-flight
handle in one atomic synchronous prefix; hence for every `n ≥ 1`, once all
`n` concurrent callers for one raw URL (and ssr flag) are done, the
resolver was invoked exactly once. -/
theorem C4_single_flight_one_resolver_call {n : Nat} {s : FlightState}
    (hn : 1 ≤ n) (hreach : FlightReachable n s)
    (hdone : ∀ p ∈ s.tasks, p = TaskPhase.done) :
    s.resolverCalls = 1 := by
  obtain ⟨hlen, hoff, hon⟩ := flightInv_reachable hreach
  cases hpub : s.pendingPublished with
  | true => exact hon hpub
  | false =>
    have hne : s.tasks ≠ [] := by
      intro hnil
      rw [hnil] at hlen
      simp only [List.length_nil] at hlen
      omega
    obtain ⟨p, hp⟩ := List.exists_mem_of_ne_nil s.tasks hne
    have h1 := (hoff hpub).2 p hp
    have h2 := hdone p hp
    rw [h2] at h1
    exact TaskPhase.noConfusion h1

/-- C4 witness: two concurrent callers; the first misses the cache and
resolves, the second hits the published handle; one resolver call. -/
theorem C4_witness :
    FlightReachable 2
      { pendingPublished := true, resolverCalls := 1,
        tasks := [TaskPhase.done, TaskPhase.done] } ∧
    FlightState.resolverCalls
      { pendingPublished := true, resolverCalls := 1,
        tasks := [TaskPhase.done, TaskPhase.done] } = 1 := by
  have h1 : FlightStep (initFlight 2)
      { pendingPublished := true, resolverCalls := 1,
        tasks := [TaskPhase.publishedWork, TaskPhase.start] } :=
    FlightStep.beginResolve 0 (initFlight 2) rfl rfl
  have h2 : FlightStep
      { pendingPublished := true, resolverCalls := 1,
        tasks := [TaskPhase.publishedWork, TaskPhase.start] }
      { pendingPublished := true, resolverCalls := 1,
        tasks := [TaskPhase.publishedWork, TaskPhase.done] } :=
    FlightStep.hitCache 1
      { pendingPublished := true, resolverCalls := 1,
        tasks := [TaskPhase.publishedWork, TaskPhase.start] } rfl rfl
  have h3 : FlightStep
      { pendingPublished := true, resolverCalls := 1,
        tasks := [TaskPhase.publishedWork, TaskPhase.done] }
      { pendingPublished := true, resolverCalls := 1,
        tasks := [TaskPhase.done, TaskPhase.done] } :=
    FlightStep.completeResolve 0
      { pendingPublished := true, resolverCalls := 1,
        tasks := [TaskPhase.publishedWork, TaskPhase.done] } rfl
  have hreach : FlightReachable 2
      { pendingPublished := true, resolverCalls := 1,
        tasks := [TaskPhase.done, TaskPhase.done] } :=
    Relation.ReflTransGen.tail
      (Relation.ReflTransGen.tail (Relation.ReflTransGen.tail
        Relation.ReflTransGen.refl h1) h2) h3
  exact ⟨hreach, C4_single_flight_one_resolver_call (by decide) hreach (by decide)⟩

/-! ## File-only entries: the fresh-creation branch of `createFileOnlyEntry` -/

theorem findExistingFileEntry_nodes_congr {g g' : ModuleGraph} (h : g'.nodes = g.nodes)
    (mods : List Nat) (url file : String) :
    findExistingFileEntry g' mods url file = findExistingFileEntry g mods url file := by
  unfold findExistingFileEntry findNode
  rw [h]

/-- `getModuleByUrl` only ever returns a node held by the url index or a
pending cache; a key outside both is never returned. -/
theorem getModuleByUrl_ne_of_bounds {g : ModuleGraph} {K : Nat}
    (hurlb : ∀ p ∈ g.urlToModuleMap, p.2 ≠ K)
    (hpendb : ∀ (b : Bool), ∀ p ∈ pendMap g b, ∀ k', p.2 = Pending.node k' → k' ≠ K) :
    ∀ (u : String) (b : Bool), (g.getModuleByUrl u b).1 ≠ Except.ok (some K) := by
  intro u b hcontra
  unfold ModuleGraph.getModuleByUrl at hcontra
  dsimp only at hcontra
  rcases hp : g._getUnresolvedUrlToModule (stripUrl u) b with _ | pe
  · rw [hp] at hcontra
    dsimp only at hcontra
    unfold ModuleGraph._resolveUrl at hcontra
    dsimp only at hcontra
    cases hres : g.resolveId (stripUrl u) b with
    | error e =>
      rw [hres] at hcontra
      dsimp only at hcontra
      exact Except.noConfusion hcontra
    | ok ro =>
      rw [hres] at hcontra
      dsimp only at hcontra
      have hlk := Except.ok.inj hcontra
      exact hurlb _ (alookup_mem hlk) rfl
  · cases pe with
    | node k' =>
      rw [hp] at hcontra
      dsimp only at hcontra
      have hk : k' = K := Option.some.inj (Except.ok.inj hcontra)
      exact hpendb b _ (alookup_mem hp) k' rfl hk
    | failed =>
      rw [hp] at hcontra
      dsimp only at hcontra
      exact Except.noConfusion hcontra

/-- C10 counterexample: `createFileOnlyEntry` can return a pre-existing
node matched by id: after `ensureEntryFromUrl "/a.css"` on the css
resolver, `createFileOnlyEntry "/a.css"` returns node 0, whose id is
`some "/a.css"` (not null) and which `getModuleById` does return. -/
theorem C10_counterexample :
    ((gcss.ensureEntryFromUrl "/a.css" false true).2.createFileOnlyEntry "/a.css").1 = 0 ∧
    (findNode ((gcss.ensureEntryFromUrl "/a.css" false true).2.createFileOnlyEntry
      "/a.css").2 0).map ModuleNode.id = some (some "/a.css") ∧
    ((gcss.ensureEntryFromUrl "/a.css" false true).2.createFileOnlyEntry
      "/a.css").2.getModuleById "/a.css" = some 0 :=
  ⟨by decide, by decide, by decide⟩

/-- C10 (amended): when the scan over the file's existing module set
misses, `createFileOnlyEntry` creates a fresh node with a null id, indexed
only under the file: the url and id indexes are unchanged, the node is in
the file index, `getModuleById` and `getModuleByUrl` never return it, and
`invalidateAll` (which walks the id index) neither visits nor changes it.
When the scan hits, the returned node can carry a non-null id and be
indexed (see the counterexample). -/
theorem C10_amended_file_only_entry_unindexed
    {g : ModuleGraph} {file0 : String} (t : Nat)
    (hidb : ∀ p ∈ g.idToModuleMap, p.2 < g.nextKey)
    (hurlb : ∀ p ∈ g.urlToModuleMap, p.2 < g.nextKey)
    (hpendb : ∀ (b : Bool), ∀ p ∈ pendMap g b, ∀ k', p.2 = Pending.node k' →
      k' < g.nextKey)
    (himpb : ∀ p ∈ g.nodes, ∀ x ∈ p.2.importers, x < g.nextKey)
    (hmiss : findExistingFileEntry g
      ((alookup g.fileToModulesMap (normalizePath file0)).getD [])
      (FS_PREFIX ++ normalizePath file0) (normalizePath file0) = none) :
    (g.createFileOnlyEntry file0).1 = g.nextKey ∧
    findNode (g.createFileOnlyEntry file0).2 (g.createFileOnlyEntry file0).1 =
      some { ModuleNode.create (FS_PREFIX ++ normalizePath file0) true with
        file := some (normalizePath file0) } ∧
    (findNode (g.createFileOnlyEntry file0).2 (g.createFileOnlyEntry file0).1).map
      ModuleNode.id = some none ∧
    (g.createFileOnlyEntry file0).2.urlToModuleMap = g.urlToModuleMap ∧
    (g.createFileOnlyEntry file0).2.idToModuleMap = g.idToModuleMap ∧
    (∃ l, alookup (g.createFileOnlyEntry file0).2.fileToModulesMap
      (normalizePath file0) = some l ∧ (g.createFileOnlyEntry file0).1 ∈ l) ∧
    (∀ i, (g.createFileOnlyEntry file0).2.getModuleById i ≠
      some (g.createFileOnlyEntry file0).1) ∧
    (∀ (u : String) (b : Bool), ((g.createFileOnlyEntry file0).2.getModuleByUrl u b).1 ≠
      Except.ok (some (g.createFileOnlyEntry file0).1)) ∧
    (g.createFileOnlyEntry file0).1 ∉
      ((g.createFileOnlyEntry file0).2.invalidateAll t).2.2 ∧
    findNode ((g.createFileOnlyEntry file0).2.invalidateAll t).1
      (g.createFileOnlyEntry file0).1 =
      some { ModuleNode.create (FS_PREFIX ++ normalizePath file0) true with
        file := some (normalizePath file0) } := by
  set file := normalizePath file0 with hfile
  set nd : ModuleNode := { ModuleNode.create (FS_PREFIX ++ file) true with
    file := some file } with hnd
  set g1 := (if (alookup g.fileToModulesMap file).isSome then g
    else { g with fileToModulesMap := aset g.fileToModulesMap file [] }) with hg1
  have hg1nodes : g1.nodes = g.nodes := by
    rw [hg1]
    split <;> rfl
  have hg1url : g1.urlToModuleMap = g.urlToModuleMap := by
    rw [hg1]
    split <;> rfl
  have hg1id : g1.idToModuleMap = g.idToModuleMap := by
    rw [hg1]
    split <;> rfl
  have hg1next : g1.nextKey = g.nextKey := by
    rw [hg1]
    split <;> rfl
  have hg1pc : g1._unresolvedUrlToModuleMap = g._unresolvedUrlToModuleMap := by
    rw [hg1]
    split <;> rfl
  have hg1ps : g1._ssrUnresolvedUrlToModuleMap = g._ssrUnresolvedUrlToModuleMap := by
    rw [hg1]
    split <;> rfl
  have hmiss1 : findExistingFileEntry g1 ((alookup g.fileToModulesMap file).getD [])
      (FS_PREFIX ++ file) file = none := by
    rw [findExistingFileEntry_nodes_congr hg1nodes]
    exact hmiss
  have hbody : g.createFileOnlyEntry file0 =
      (g1.nextKey, { g1 with
        nodes := aset g1.nodes g1.nextKey nd
        nextKey := g1.nextKey + 1
        fileToModulesMap := aset g1.fileToModulesMap file
          (osAdd ((alookup g.fileToModulesMap file).getD []) g1.nextKey) }) := by
    unfold ModuleGraph.createFileOnlyEntry
    dsimp only
    rw [← hfile, ← hg1, hmiss1, ← hnd]
  rw [hbody]
  dsimp only
  set G2 : ModuleGraph := { g1 with
    nodes := aset g1.nodes g1.nextKey nd
    nextKey := g1.nextKey + 1
    fileToModulesMap := aset g1.fileToModulesMap file
      (osAdd ((alookup g.fileToModulesMap file).getD []) g1.nextKey) } with hG2
  have hfindG2 : findNode G2 g1.nextKey = some nd := by
    show alookup (aset g1.nodes g1.nextKey nd) g1.nextKey = some nd
    exact alookup_aset_self _ _ _
  have hpost := invalidateSeq_post t (G2.idToModuleMap.map Prod.snd) G2 []
  have hnv : g1.nextKey ∉ (invalidateSeq G2 (G2.idToModuleMap.map Prod.snd) [] t).2.2 := by
    intro hmem
    rcases hpost.source _ hmem with hroot | himp
    · rcases List.mem_map.mp hroot with ⟨p, hp, hp2⟩
      have hp' : p ∈ g.idToModuleMap := by
        rw [show G2.idToModuleMap = g.idToModuleMap from hg1id] at hp
        exact hp
      have hlt := hidb p hp'
      rw [hp2, hg1next] at hlt
      exact absurd hlt (lt_irrefl _)
    · rcases himp with ⟨p, hp, hx⟩
      have hp' : p ∈ aset g1.nodes g1.nextKey nd := hp
      rcases mem_aset hp' with rfl | hpg
      · exact absurd hx (List.not_mem_nil _)
      · have hpg' : p ∈ g.nodes := hg1nodes ▸ hpg
        have hlt := himpb p hpg' _ hx
        rw [hg1next] at hlt
        exact absurd hlt (lt_irrefl _)
  have hinv1 : findNode (invalidateSeq G2 (G2.idToModuleMap.map Prod.snd) [] t).1
      g1.nextKey = some nd := by
    have hlk := hpost.lookup g1.nextKey nd hfindG2
    rw [if_neg hnv] at hlk
    exact hlk
  refine ⟨hg1next, hfindG2, ?_, hg1url, hg1id, ?_, ?_, ?_, hnv, hinv1⟩
  · rw [hfindG2, hnd]
    rfl
  · exact ⟨_, alookup_aset_self _ _ _, self_mem_osAdd _ _⟩
  · intro i hcontra
    unfold ModuleGraph.getModuleById at hcontra
    rw [show G2.idToModuleMap = g.idToModuleMap from hg1id] at hcontra
    have hlt := hidb _ (alookup_mem hcontra)
    rw [hg1next] at hlt
    exact absurd hlt (lt_irrefl _)
  · have hurlb2 : ∀ p ∈ G2.urlToModuleMap, p.2 ≠ g1.nextKey := by
      intro p hp
      have hp' : p ∈ g.urlToModuleMap := by
        rw [show G2.urlToModuleMap = g.urlToModuleMap from hg1url] at hp
        exact hp
      have hlt := hurlb p hp'
      rw [hg1next]
      omega
    have hpendb2 : ∀ (b : Bool), ∀ p ∈ pendMap G2 b, ∀ k', p.2 = Pending.node k' →
        k' ≠ g1.nextKey := by
      intro b p hp k' hk'
      have hpm : pendMap G2 b = pendMap g b := by
        cases b
        · exact hg1pc
        · exact hg1ps
      rw [hpm] at hp
      have hlt := hpendb b p hp k' hk'
      rw [hg1next]
      omega
    exact getModuleByUrl_ne_of_bounds hurlb2 hpendb2

/-- C10 witness: a fresh file-only entry for `/x.js` on `gW9`: key 1, null
id, url and id indexes untouched, unreturned by the by-id and by-url
lookups and unvisited by `invalidateAll`. -/
theorem C10_witness :
    (gW9.createFileOnlyEntry "/x.js").1 = gW9.nextKey ∧
    (findNode (gW9.createFileOnlyEntry "/x.js").2
      (gW9.createFileOnlyEntry "/x.js").1).map ModuleNode.id = some none ∧
    (gW9.createFileOnlyEntry "/x.js").2.urlToModuleMap = gW9.urlToModuleMap ∧
    (gW9.createFileOnlyEntry "/x.js").2.idToModuleMap = gW9.idToModuleMap ∧
    (gW9.createFileOnlyEntry "/x.js").2.getModuleById "/w9" ≠
      some (gW9.createFileOnlyEntry "/x.js").1 ∧
    ((gW9.createFileOnlyEntry "/x.js").2.getModuleByUrl "/w9" false).1 ≠
      Except.ok (some (gW9.createFileOnlyEntry "/x.js").1) ∧
    (gW9.createFileOnlyEntry "/x.js").1 ∉
      ((gW9.createFileOnlyEntry "/x.js").2.invalidateAll 7).2.2 := by
  have hpendb : ∀ (b : Bool), ∀ p ∈ pendMap gW9 b, ∀ k', p.2 = Pending.node k' →
      k' < gW9.nextKey := by
    intro b p hp
    cases b <;> exact absurd hp (List.not_mem_nil p)
  have h := @C10_amended_file_only_entry_unindexed gW9 "/x.js" 7 (by decide) (by decide)
    hpendb (by decide) (by decide)
  exact ⟨h.1, h.2.2.1, h.2.2.2.1, h.2.2.2.2.1, h.2.2.2.2.2.2.1 "/w9",
    h.2.2.2.2.2.2.2.1 "/w9" false, h.2.2.2.2.2.2.2.2.1⟩

/-! ## Further lemmas on the ordered-set primitives and `updateNode` -/

theorem osAdd_of_mem {l : List Nat} {x : Nat} (h : x ∈ l) : osAdd l x = l := by
  simp [osAdd, h]

theorem osAdd_idem (l : List Nat) (x : Nat) : osAdd (osAdd l x) x = osAdd l x :=
  osAdd_of_mem (self_mem_osAdd l x)

theorem osErase_of_not_mem {l : List Nat} {x : Nat} (h : x ∉ l) : osErase l x = l := by
  unfold osErase
  apply List.filter_eq_self.mpr
  intro a ha
  exact bne_iff_ne.mpr (fun hax => h (hax ▸ ha))

theorem not_mem_osErase_self (l : List Nat) (x : Nat) : x ∉ osErase l x := by
  intro h
  exact (mem_osErase.mp h).2 rfl

theorem osErase_idem (l : List Nat) (x : Nat) : osErase (osErase l x) x = osErase l x :=
  osErase_of_not_mem (not_mem_osErase_self l x)

theorem mem_dedupKeep_of_mem {x : Nat} : ∀ {l : List Nat}, x ∈ l → x ∈ dedupKeep l := by
  intro l
  induction l with
  | nil => intro h; cases h
  | cons y rest ih =>
    intro h
    rw [dedupKeep]
    rcases List.mem_cons.mp h with rfl | h'
    · exact List.mem_cons_self _ _
    · by_cases hxy : x = y
      · subst hxy
        exact List.mem_cons_self _ _
      · exact List.mem_cons_of_mem _ (List.mem_filter.mpr ⟨ih h', bne_iff_ne.mpr hxy⟩)

theorem updateNode_urlToModuleMap (g : ModuleGraph) (k : Nat)
    (f : ModuleNode → ModuleNode) :
    (updateNode g k f).urlToModuleMap = g.urlToModuleMap := by
  unfold updateNode
  cases alookup g.nodes k <;> rfl

theorem updateNode_idToModuleMap (g : ModuleGraph) (k : Nat)
    (f : ModuleNode → ModuleNode) :
    (updateNode g k f).idToModuleMap = g.idToModuleMap := by
  unfold updateNode
  cases alookup g.nodes k <;> rfl

theorem updateNode_nextKey (g : ModuleGraph) (k : Nat) (f : ModuleNode → ModuleNode) :
    (updateNode g k f).nextKey = g.nextKey := by
  unfold updateNode
  cases alookup g.nodes k <;> rfl

theorem updateNode_resolveId (g : ModuleGraph) (k : Nat) (f : ModuleNode → ModuleNode) :
    (updateNode g k f).resolveId = g.resolveId := by
  unfold updateNode
  cases alookup g.nodes k <;> rfl

theorem updateNode_pendc (g : ModuleGraph) (k : Nat) (f : ModuleNode → ModuleNode) :
    (updateNode g k f)._unresolvedUrlToModuleMap = g._unresolvedUrlToModuleMap := by
  unfold updateNode
  cases alookup g.nodes k <;> rfl

theorem updateNode_pends (g : ModuleGraph) (k : Nat) (f : ModuleNode → ModuleNode) :
    (updateNode g k f)._ssrUnresolvedUrlToModuleMap = g._ssrUnresolvedUrlToModuleMap := by
  unfold updateNode
  cases alookup g.nodes k <;> rfl

theorem updateNode_pendMap (g : ModuleGraph) (k : Nat) (f : ModuleNode → ModuleNode)
    (b : Bool) : pendMap (updateNode g k f) b = pendMap g b := by
  cases b
  · exact updateNode_pendc g k f
  · exact updateNode_pends g k f

theorem updateNode_isSome (g : ModuleGraph) (k : Nat) (f : ModuleNode → ModuleNode)
    (j : Nat) : (findNode (updateNode g k f) j).isSome = (findNode g j).isSome := by
  by_cases hj : j = k
  · subst hj
    cases h : findNode g j with
    | none => rw [updateNode_of_none f h, h]
    | some v =>
      rw [findNode_updateNode_self f h]
      rfl
  · rw [findNode_updateNode_ne f hj]

theorem findNode_updateNode_frame {g : ModuleGraph} {j : Nat} {v : ModuleNode}
    (k : Nat) (f : ModuleNode → ModuleNode) (h : findNode g j = some v) :
    findNode (updateNode g k f) j = some (if j = k then f v else v) := by
  by_cases hj : j = k
  · subst hj
    rw [if_pos rfl]
    exact findNode_updateNode_self f h
  · rw [if_neg hj, findNode_updateNode_ne f hj]
    exact h

theorem findNode_updateNode_none {g : ModuleGraph} {j : Nat}
    (k : Nat) (f : ModuleNode → ModuleNode) (h : findNode g j = none) :
    findNode (updateNode g k f) j = none := by
  by_cases hj : j = k
  · subst hj
    rw [updateNode_of_none f h]
    exact h
  · rw [findNode_updateNode_ne f hj]
    exact h

theorem GraphWF_updateNode {g : ModuleGraph} (hwf : GraphWF g) (k : Nat)
    (f : ModuleNode → ModuleNode) : GraphWF (updateNode g k f) := by
  cases hd : findNode g k with
  | none =>
    rw [updateNode_of_none f hd]
    exact hwf
  | some v =>
    have hnodes : (updateNode g k f).nodes = aset g.nodes k (f v) := by
      unfold updateNode
      rw [show alookup g.nodes k = some v from hd]
      rfl
    refine ⟨?_, ?_, ?_, ?_, ?_⟩
    · intro p hp
      rw [hnodes] at hp
      rw [updateNode_nextKey]
      rcases mem_aset hp with rfl | hp'
      · have hkv := hwf.keys_lt (k, v) (alookup_mem hd)
        exact hkv
      · exact hwf.keys_lt _ hp'
    · rw [hnodes]
      exact nodup_map_fst_aset _ _ _ hwf.keys_nodup
    · intro p hp k' hk'
      rw [updateNode_pendc] at hp
      rw [updateNode_isSome]
      exact hwf.pend_client p hp k' hk'
    · intro p hp k' hk'
      rw [updateNode_pends] at hp
      rw [updateNode_isSome]
      exact hwf.pend_ssr p hp k' hk'
    · intro p hp
      rw [updateNode_idToModuleMap] at hp
      rw [updateNode_isSome]
      exact hwf.idm p hp

theorem PendConsistent_updateNode {g : ModuleGraph} (hpc : PendConsistent g) (k : Nat)
    (f : ModuleNode → ModuleNode) : PendConsistent (updateNode g k f) := by
  intro b p hp k' hk'
  rw [updateNode_pendMap] at hp
  obtain ⟨rid, hr, hi⟩ := hpc b p hp k' hk'
  refine ⟨rid, ?_, ?_⟩
  · rw [resolvedIdOf_congr (updateNode_resolveId g k f)]
    exact hr
  · rw [updateNode_idToModuleMap]
    exact hi

/-! ## The resolution loops of `updateModuleInfo` -/

/-- Postcondition of the import-resolution loop: registry invariants are
preserved, node values evolve at most by gaining `modKey` in their importer
sets (edge sets untouched), and every resolved dependency records `modKey`
among its importers. -/
theorem resolveImportedDeps_spec {modKey : Nat} {ssr : Bool} :
    ∀ (lst : List (String ⊕ Nat)) (g g2 : ModuleGraph) (results : List Nat),
      GraphWF g → PendConsistent g →
      (∀ d, Sum.inr d ∈ lst → (findNode g d).isSome) →
      resolveImportedDeps modKey ssr g lst = (Except.ok results, g2) →
      GraphWF g2 ∧ PendConsistent g2 ∧
      (∀ j v, findNode g j = some v → ∃ v', findNode g2 j = some v' ∧
        (v'.importers = v.importers ∨ v'.importers = osAdd v.importers modKey) ∧
        v'.clientImportedModules = v.clientImportedModules ∧
        v'.ssrImportedModules = v.ssrImportedModules) ∧
      (∀ dep ∈ results, ∃ v, findNode g2 dep = some v ∧ modKey ∈ v.importers) := by
  intro lst
  induction lst with
  | nil =>
    intro g g2 results hwf hpc hrefs h
    simp only [resolveImportedDeps] at h
    injection h with h1 h2
    subst h2
    have hres : results = [] := (Except.ok.inj h1).symm
    subst hres
    exact ⟨hwf, hpc, fun j v hv => ⟨v, hv, Or.inl rfl, rfl, rfl⟩,
      fun dep hd => absurd hd (List.not_mem_nil dep)⟩
  | cons hd0 rest ih =>
    intro g g2 results hwf hpc hrefs h
    cases hd0 with
    | inl s =>
      simp only [resolveImportedDeps] at h
      rcases hens : g.ensureEntryFromUrl s ssr true with ⟨e1, g1⟩
      rw [hens] at h
      cases e1 with
      | error u =>
        dsimp only at h
        injection h with h1 h2
        exact Except.noConfusion h1
      | ok dep =>
        dsimp only at h
        rcases hrest : resolveImportedDeps modKey ssr (addImporter g1 dep modKey) rest
          with ⟨e2, g3⟩
        rw [hrest] at h
        cases e2 with
        | error u =>
          dsimp only at h
          injection h with h1 h2
          exact Except.noConfusion h1
        | ok ks =>
          dsimp only at h
          injection h with h1 h2
          subst h2
          have hres : results = dep :: ks := (Except.ok.inj h1).symm
          subst hres
          obtain ⟨rid, hrid, spec⟩ := ensure_ok_spec hwf hpc hens
          obtain ⟨w, hw⟩ := Option.isSome_iff_exists.mp spec.result_present
          have hwf2 : GraphWF (addImporter g1 dep modKey) :=
            GraphWF_updateNode spec.wf dep _
          have hpc2 : PendConsistent (addImporter g1 dep modKey) :=
            PendConsistent_updateNode spec.pend dep _
          have hrefs2 : ∀ d, Sum.inr d ∈ rest →
              (findNode (addImporter g1 dep modKey) d).isSome := by
            intro d hdm
            have h0 := hrefs d (List.mem_cons_of_mem _ hdm)
            have h1' := isSome_of_frame spec.node_frame h0
            rw [show (findNode (addImporter g1 dep modKey) d).isSome =
              (findNode g1 d).isSome from updateNode_isSome g1 dep _ d]
            exact h1'
          obtain ⟨hwfF, hpcF, hframe, hresults⟩ :=
            ih (addImporter g1 dep modKey) g3 ks hwf2 hpc2 hrefs2 hrest
          refine ⟨hwfF, hpcF, ?_, ?_⟩
          · intro j v hv
            have hv1 : findNode g1 j = some v := spec.node_frame j v hv
            have hv2 := findNode_updateNode_frame dep
              (fun v => { v with importers := osAdd v.importers modKey }) hv1
            by_cases hj : j = dep
            · rw [if_pos hj] at hv2
              obtain ⟨v', hv', himp, hc, hs⟩ := hframe j _ hv2
              refine ⟨v', hv', ?_, hc, hs⟩
              rcases himp with h' | h'
              · exact Or.inr h'
              · rw [osAdd_idem] at h'
                exact Or.inr h'
            · rw [if_neg hj] at hv2
              exact hframe j v hv2
          · intro d hdm
            rcases List.mem_cons.mp hdm with rfl | hdm'
            · have hadd : findNode (addImporter g1 d modKey) d =
                  some { w with importers := osAdd w.importers modKey } := by
                have hv2 := findNode_updateNode_frame d
                  (fun v => { v with importers := osAdd v.importers modKey }) hw
                rw [if_pos rfl] at hv2
                exact hv2
              obtain ⟨v', hv', himp, hc, hs⟩ := hframe d _ hadd
              refine ⟨v', hv', ?_⟩
              rcases himp with h' | h'
              · rw [h']
                exact self_mem_osAdd _ _
              · rw [h']
                exact mem_osAdd_of_mem _ (self_mem_osAdd _ _)
            · exact hresults d hdm'
    | inr dep =>
      simp only [resolveImportedDeps] at h
      rcases hrest : resolveImportedDeps modKey ssr (addImporter g dep modKey) rest
        with ⟨e2, g3⟩
      rw [hrest] at h
      cases e2 with
      | error u =>
        dsimp only at h
        injection h with h1 h2
        exact Except.noConfusion h1
      | ok ks =>
        dsimp only at h
        injection h with h1 h2
        subst h2
        have hres : results = dep :: ks := (Except.ok.inj h1).symm
        subst hres
        obtain ⟨w, hw⟩ := Option.isSome_iff_exists.mp
          (hrefs dep (List.mem_cons_self _ _))
        have hwf2 : GraphWF (addImporter g dep modKey) := GraphWF_updateNode hwf dep _
        have hpc2 : PendConsistent (addImporter g dep modKey) :=
          PendConsistent_updateNode hpc dep _
        have hrefs2 : ∀ d, Sum.inr d ∈ rest →
            (findNode (addImporter g dep modKey) d).isSome := by
          intro d hdm
          rw [show (findNode (addImporter g dep modKey) d).isSome =
            (findNode g d).isSome from updateNode_isSome g dep _ d]
          exact hrefs d (List.mem_cons_of_mem _ hdm)
        obtain ⟨hwfF, hpcF, hframe, hresults⟩ :=
          ih (addImporter g dep modKey) g3 ks hwf2 hpc2 hrefs2 hrest
        refine ⟨hwfF, hpcF, ?_, ?_⟩
        · intro j v hv
          have hv2 := findNode_updateNode_frame dep
            (fun v => { v with importers := osAdd v.importers modKey }) hv
          by_cases hj : j = dep
          · rw [if_pos hj] at hv2
            obtain ⟨v', hv', himp, hc, hs⟩ := hframe j _ hv2
            refine ⟨v', hv', ?_, hc, hs⟩
            rcases himp with h' | h'
            · exact Or.inr h'
            · rw [osAdd_idem] at h'
              exact Or.inr h'
          · rw [if_neg hj] at hv2
            exact hframe j v hv2
        · intro d hdm
          rcases List.mem_cons.mp hdm with rfl | hdm'
          · have hadd : findNode (addImporter g d modKey) d =
                some { w with importers := osAdd w.importers modKey } := by
              have hv2 := findNode_updateNode_frame d
                (fun v => { v with importers := osAdd v.importers modKey }) hw
              rw [if_pos rfl] at hv2
              exact hv2
            obtain ⟨v', hv', himp, hc, hs⟩ := hframe d _ hadd
            refine ⟨v', hv', ?_⟩
            rcases himp with h' | h'
            · rw [h']
              exact self_mem_osAdd _ _
            · rw [h']
              exact mem_osAdd_of_mem _ (self_mem_osAdd _ _)
          · exact hresults d hdm'

/-- Postcondition of the accepted-dependency resolution loop: it only ever
creates fresh nodes, every existing node value is untouched, and the
registry invariants survive. -/
theorem resolveAcceptedDeps_spec {ssr : Bool} :
    ∀ (lst : List (String ⊕ Nat)) (g g2 : ModuleGraph) (res : List Nat),
      GraphWF g → PendConsistent g →
      resolveAcceptedDeps ssr g lst = (Except.ok res, g2) →
      (∀ j v, findNode g j = some v → findNode g2 j = some v) := by
  intro lst
  induction lst with
  | nil =>
    intro g g2 res hwf hpc h
    simp only [resolveAcceptedDeps] at h
    injection h with h1 h2
    subst h2
    exact fun j v hv => hv
  | cons hd0 rest ih =>
    intro g g2 res hwf hpc h
    cases hd0 with
    | inl s =>
      simp only [resolveAcceptedDeps] at h
      rcases hens : g.ensureEntryFromUrl s ssr true with ⟨e1, g1⟩
      rw [hens] at h
      cases e1 with
      | error u =>
        dsimp only at h
        injection h with h1 h2
        exact Except.noConfusion h1
      | ok dep =>
        dsimp only at h
        rcases hrest : resolveAcceptedDeps ssr g1 rest with ⟨e2, g3⟩
        rw [hrest] at h
        cases e2 with
        | error u =>
          dsimp only at h
          injection h with h1 h2
          exact Except.noConfusion h1
        | ok ks =>
          dsimp only at h
          injection h with h1 h2
          subst h2
          obtain ⟨rid, hrid, spec⟩ := ensure_ok_spec hwf hpc hens
          have hframe := ih g1 g3 ks spec.wf spec.pend hrest
          exact fun j v hv => hframe j v (spec.node_frame j v hv)
    | inr dep =>
      simp only [resolveAcceptedDeps] at h
      rcases hrest : resolveAcceptedDeps ssr g rest with ⟨e2, g3⟩
      rw [hrest] at h
      cases e2 with
      | error u =>
        dsimp only at h
        injection h with h1 h2
        exact Except.noConfusion h1
      | ok ks =>
        dsimp only at h
        injection h with h1 h2
        subst h2
        exact ih g g3 ks hwf hpc hrest

/-! ## The pruning loop of `updateModuleInfo` -/

theorem pruneImports_nil (modKey : Nat) (g : ModuleGraph) (orphans : List Nat) :
    pruneImports modKey g [] orphans = (g, orphans) := rfl

theorem pruneImports_cons_skip {modKey dep : Nat} {g : ModuleGraph} {vm : ModuleNode}
    (rest orphans : List Nat) (hvm : findNode g modKey = some vm)
    (hmem : dep ∈ vm.clientImportedModules ∨ dep ∈ vm.ssrImportedModules) :
    pruneImports modKey g (dep :: rest) orphans = pruneImports modKey g rest orphans := by
  simp only [pruneImports, hvm]
  rw [if_pos hmem]

theorem pruneImports_cons_erase {modKey dep : Nat} {g : ModuleGraph} {vm : ModuleNode}
    (rest orphans : List Nat) (hvm : findNode g modKey = some vm)
    (hmem : ¬ (dep ∈ vm.clientImportedModules ∨ dep ∈ vm.ssrImportedModules)) :
    pruneImports modKey g (dep :: rest) orphans =
      pruneImports modKey
        (updateNode g dep (fun v => { v with importers := osErase v.importers modKey }))
        rest
        (match findNode (updateNode g dep
            (fun v => { v with importers := osErase v.importers modKey })) dep with
          | some v => if v.importers.isEmpty then osAdd orphans dep else orphans
          | none => orphans) := by
  simp only [pruneImports, hvm]
  rw [if_neg hmem]

/-- Postcondition of the pruning loop (see `PrunePost`), given that the
updated module's node exists with current edge sets `C` and `S`. -/
theorem pruneImports_spec {modKey : Nat} {C S : List Nat} :
    ∀ (lst : List Nat) (g : ModuleGraph) (orphans : List Nat) (vm : ModuleNode),
      findNode g modKey = some vm → vm.clientImportedModules = C →
      vm.ssrImportedModules = S →
      PrunePost modKey C S g lst orphans (pruneImports modKey g lst orphans) := by
  intro lst
  induction lst with
  | nil =>
    intro g orphans vm hvm hC hS
    rw [pruneImports_nil]
    exact ⟨fun h => h, fun h => h, fun x hx => hx,
      fun j v hv => ⟨v, hv, Or.inl rfl, rfl, rfl⟩, fun j hj => hj,
      fun j _ v hv => hv, fun dep hdep => absurd hdep (List.not_mem_nil dep)⟩
  | cons dep rest ih =>
    intro g orphans vm hvm hC hS
    by_cases hmem : dep ∈ vm.clientImportedModules ∨ dep ∈ vm.ssrImportedModules
    · rw [pruneImports_cons_skip rest orphans hvm hmem]
      have post := ih g orphans vm hvm hC hS
      refine ⟨post.wf, post.pend, post.orph_mono, post.frame, post.frame_none,
        post.skip, ?_⟩
      intro dep0 hdep0 hnc hns v' hv'
      rcases List.mem_cons.mp hdep0 with rfl | hdep0'
      · rcases hmem with hmem | hmem
        · exact absurd (hC ▸ hmem) hnc
        · exact absurd (hS ▸ hmem) hns
      · exact post.pruned dep0 hdep0' hnc hns v' hv'
    · rw [pruneImports_cons_erase rest orphans hvm hmem]
      have hdepC : dep ∉ C := fun hc => hmem (Or.inl (hC.symm ▸ hc))
      have hdepS : dep ∉ S := fun hs => hmem (Or.inr (hS.symm ▸ hs))
      have hvm1 := findNode_updateNode_frame dep
        (fun v => { v with importers := osErase v.importers modKey }) hvm
      cases hgd : findNode g dep with
      | none =>
        have hg1 : updateNode g dep
            (fun v => { v with importers := osErase v.importers modKey }) = g :=
          updateNode_of_none _ hgd
        rw [hg1, hgd]
        have post := ih g orphans vm hvm hC hS
        refine ⟨post.wf, post.pend, post.orph_mono, post.frame, post.frame_none,
          post.skip, ?_⟩
        intro dep0 hdep0 hnc hns v' hv'
        rcases List.mem_cons.mp hdep0 with rfl | hdep0'
        · have hnone := post.frame_none dep0 hgd
          rw [hv'] at hnone
          exact Option.noConfusion hnone
        · exact post.pruned dep0 hdep0' hnc hns v' hv'
      | some w =>
        have hg1d : findNode (updateNode g dep
            (fun v => { v with importers := osErase v.importers modKey })) dep =
            some { w with importers := osErase w.importers modKey } :=
          findNode_updateNode_self _ hgd
        rw [hg1d]
        have hvm1' : findNode (updateNode g dep
            (fun v => { v with importers := osErase v.importers modKey })) modKey =
            some (if modKey = dep
              then { vm with importers := osErase vm.importers modKey } else vm) := hvm1
        have hinner : ∀ orphans1 : List Nat,
            (∀ x ∈ orphans, x ∈ orphans1) →
            ((osErase w.importers modKey).isEmpty = true → dep ∈ orphans1) →
            PrunePost modKey C S g (dep :: rest) orphans
              (pruneImports modKey
                (updateNode g dep
                  (fun v => { v with importers := osErase v.importers modKey }))
                rest orphans1) := by
          intro orphans1 hmono1 hor1
          have post : PrunePost modKey C S
              (updateNode g dep
                (fun v => { v with importers := osErase v.importers modKey }))
              rest orphans1
              (pruneImports modKey
                (updateNode g dep
                  (fun v => { v with importers := osErase v.importers modKey }))
                rest orphans1) := by
            by_cases hmd : modKey = dep
            · rw [if_pos hmd] at hvm1'
              exact ih _ orphans1 _ hvm1' hC hS
            · rw [if_neg hmd] at hvm1'
              exact ih _ orphans1 vm hvm1' hC hS
          refine ⟨?_, ?_, ?_, ?_, ?_, ?_, ?_⟩
          · intro hwf
            exact post.wf (GraphWF_updateNode hwf dep _)
          · intro hpc
            exact post.pend (PendConsistent_updateNode hpc dep _)
          · intro x hx
            exact post.orph_mono x (hmono1 x hx)
          · intro j v hv
            have hv2 := findNode_updateNode_frame dep
              (fun v => { v with importers := osErase v.importers modKey }) hv
            by_cases hj : j = dep
            · rw [if_pos hj] at hv2
              obtain ⟨v', hv', himp, hc, hs⟩ := post.frame j _ hv2
              refine ⟨v', hv', ?_, hc, hs⟩
              rcases himp with h' | h'
              · exact Or.inr h'
              · rw [osErase_idem] at h'
                exact Or.inr h'
            · rw [if_neg hj] at hv2
              exact post.frame j v hv2
          · intro j hj
            exact post.frame_none j (findNode_updateNode_none dep _ hj)
          · intro j hjCS v hv
            have hj : j ≠ dep := by
              intro hjd
              subst hjd
              rcases hjCS with hc | hs
              · exact hdepC hc
              · exact hdepS hs
            have hv1 : findNode (updateNode g dep
                (fun v => { v with importers := osErase v.importers modKey })) j =
                some v := by
              rw [findNode_updateNode_ne _ hj]
              exact hv
            exact post.skip j hjCS v hv1
          · intro dep0 hdep0 hnc hns v' hv'
            rcases List.mem_cons.mp hdep0 with rfl | hdep0'
            · obtain ⟨v'', hv'', himp, hc, hs⟩ := post.frame dep0 _ hg1d
              have hveq : v' = v'' := Option.some.inj (hv'.symm.trans hv'')
              subst hveq
              have himpeq : v'.importers = osErase w.importers modKey := by
                rcases himp with h' | h'
                · exact h'
                · rw [osErase_idem] at h'
                  exact h'
              constructor
              · rw [himpeq]
                exact not_mem_osErase_self _ _
              · intro hE
                rw [himpeq] at hE
                exact post.orph_mono dep0 (hor1 hE)
            · exact post.pruned dep0 hdep0' hnc hns v' hv'
        refine hinner _ ?_ ?_
        · intro x hx
          show x ∈ (if (osErase w.importers modKey).isEmpty = true
            then osAdd orphans dep else orphans)
          by_cases hE : (osErase w.importers modKey).isEmpty = true
          · rw [if_pos hE]
            exact mem_osAdd_of_mem _ hx
          · rw [if_neg hE]
            exact hx
        · intro hE
          show dep ∈ (if (osErase w.importers modKey).isEmpty = true
            then osAdd orphans dep else orphans)
          rw [if_pos hE]
          exact self_mem_osAdd _ _

/-- C2: after `updateModuleInfo` completes, every dependency of the updated
direction's final edge set records the module among its importers; every
dependency of the previous edge set (for the updated direction) absent from
both final edge sets has the module removed from its importers, and appears
in the returned orphan set if its importer set is thereby empty. -/
theorem C2_updateModuleInfo_importer_maintenance
    {g g' : ModuleGraph} {modKey : Nat} {mod0 mfin : ModuleNode}
    {imported accepted : List (String ⊕ Nat)}
    {bnd : Option (List (String × List String))} {aexp : Option (List String)}
    {selfAcc ssr : Bool} {o : Option (List Nat)}
    (hwf : GraphWF g) (hpc : PendConsistent g)
    (hm0 : findNode g modKey = some mod0)
    (hrefs : ∀ d, Sum.inr d ∈ imported → (findNode g d).isSome)
    (hprev : ∀ d ∈ (if ssr then mod0.ssrImportedModules
      else mod0.clientImportedModules), (findNode g d).isSome)
    (h : g.updateModuleInfo modKey imported bnd accepted aexp selfAcc ssr =
      (Except.ok o, g'))
    (hmf : findNode g' modKey = some mfin) :
    (∀ dep ∈ (if ssr then mfin.ssrImportedModules else mfin.clientImportedModules),
      ∃ v, findNode g' dep = some v ∧ modKey ∈ v.importers) ∧
    (∀ dep ∈ (if ssr then mod0.ssrImportedModules else mod0.clientImportedModules),
      dep ∉ mfin.clientImportedModules → dep ∉ mfin.ssrImportedModules →
      ∀ v, findNode g' dep = some v →
        modKey ∉ v.importers ∧ (v.importers.isEmpty = true → dep ∈ o.getD [])) := by
  unfold ModuleGraph.updateModuleInfo at h
  rw [hm0] at h
  dsimp only at h
  rcases hr1 : resolveImportedDeps modKey ssr
      (updateNode g modKey (fun v => { v with isSelfAccepting := some selfAcc }))
      imported with ⟨e1, g2⟩
  rw [hr1] at h
  cases e1 with
  | error u =>
    dsimp only at h
    injection h with h1 h2
    exact Except.noConfusion h1
  | ok results =>
    dsimp only at h
    rcases hr2 : resolveAcceptedDeps ssr
        (pruneImports modKey
          (updateNode g2 modKey (fun v =>
            if ssr then { v with ssrImportedModules := dedupKeep results }
            else { v with clientImportedModules := dedupKeep results }))
          (if ssr then mod0.ssrImportedModules else mod0.clientImportedModules) []).1
        accepted with ⟨e2, g4⟩
    rw [hr2] at h
    cases e2 with
    | error u =>
      dsimp only at h
      injection h with h1 h2
      exact Except.noConfusion h1
    | ok ares =>
      dsimp only at h
      injection h with h1 h2
      set g1 := updateNode g modKey
        (fun v => { v with isSelfAccepting := some selfAcc }) with hg1
      set fnDir := (fun v =>
        if ssr then { v with ssrImportedModules := dedupKeep results }
        else { v with clientImportedModules := dedupKeep results } :
          ModuleNode → ModuleNode) with hfnDir
      set g3 := updateNode g2 modKey fnDir with hg3
      set prevL := (if ssr then mod0.ssrImportedModules
        else mod0.clientImportedModules) with hprevL
      set pr := pruneImports modKey g3 prevL [] with hpr
      have ho : o = if pr.2.isEmpty then none else some pr.2 :=
        (Except.ok.inj h1).symm
      have hwf1 : GraphWF g1 := by
        rw [hg1]
        exact GraphWF_updateNode hwf modKey _
      have hpc1 : PendConsistent g1 := by
        rw [hg1]
        exact PendConsistent_updateNode hpc modKey _
      have hrefs1 : ∀ d, Sum.inr d ∈ imported → (findNode g1 d).isSome := by
        intro d hd
        rw [hg1, updateNode_isSome]
        exact hrefs d hd
      obtain ⟨hwf2, hpc2, hframe1, hresults⟩ :=
        resolveImportedDeps_spec imported g1 g2 results hwf1 hpc1 hrefs1 hr1
      have hm1 : findNode g1 modKey =
          some { mod0 with isSelfAccepting := some selfAcc } := by
        rw [hg1]
        exact findNode_updateNode_self _ hm0
      obtain ⟨v2, hv2, himp2, hc2, hs2⟩ := hframe1 modKey _ hm1
      have hwf3 : GraphWF g3 := by
        rw [hg3]
        exact GraphWF_updateNode hwf2 modKey _
      have hpc3 : PendConsistent g3 := by
        rw [hg3]
        exact PendConsistent_updateNode hpc2 modKey _
      have hv3 : findNode g3 modKey = some (fnDir v2) := by
        rw [hg3]
        exact findNode_updateNode_self _ hv2
      have ppost : PrunePost modKey (fnDir v2).clientImportedModules
          (fnDir v2).ssrImportedModules g3 prevL [] pr := by
        rw [hpr]
        exact pruneImports_spec prevL g3 [] (fnDir v2) hv3 rfl rfl
      have hframeA := resolveAcceptedDeps_spec accepted pr.1 g4 ares
        (ppost.wf hwf3) (ppost.pend hpc3) hr2
      obtain ⟨v4p, hv4p, himpP, hcP, hsP⟩ := ppost.frame modKey _ hv3
      have hv4 : findNode g4 modKey = some v4p := hframeA modKey v4p hv4p
      have hmf' : findNode g' modKey = some
          { v4p with acceptedHmrDeps := dedupKeep ares
                     acceptedHmrExports := aexp
                     importedBindings := bnd } := by
        rw [← h2]
        exact findNode_updateNode_self _ hv4
      have hmfin : mfin =
          { v4p with acceptedHmrDeps := dedupKeep ares
                     acceptedHmrExports := aexp
                     importedBindings := bnd } :=
        Option.some.inj (hmf.symm.trans hmf')
      have hmC : mfin.clientImportedModules = v4p.clientImportedModules := by
        rw [hmfin]
      have hmS : mfin.ssrImportedModules = v4p.ssrImportedModules := by
        rw [hmfin]
      have hfnDirImp : ∀ w : ModuleNode, (fnDir w).importers = w.importers := by
        intro w
        rw [hfnDir]
        by_cases hb : ssr = true
        · rw [hb]
          rfl
        · have hb' : ssr = false := Bool.eq_false_iff.mpr hb
          rw [hb']
          rfl
      have hdirfn : (if ssr then (fnDir v2).ssrImportedModules
          else (fnDir v2).clientImportedModules) = dedupKeep results := by
        rw [hfnDir]
        by_cases hb : ssr = true
        · rw [hb]
          rfl
        · have hb' : ssr = false := Bool.eq_false_iff.mpr hb
          rw [hb']
          rfl
      have hmdir : (if ssr then mfin.ssrImportedModules
          else mfin.clientImportedModules) = dedupKeep results := by
        have hsel : (if ssr then mfin.ssrImportedModules
            else mfin.clientImportedModules) =
            (if ssr then (fnDir v2).ssrImportedModules
            else (fnDir v2).clientImportedModules) := by
          by_cases hb : ssr = true
          · rw [hb, if_pos rfl, if_pos rfl, hmS, hsP]
          · rw [if_neg hb, if_neg hb, hmC, hcP]
        rw [hsel]
        exact hdirfn
      constructor
      · intro dep hdep
        rw [hmdir] at hdep
        obtain ⟨w2, hw2, hw2m⟩ := hresults dep (mem_dedupKeep hdep)
        have hw3 := findNode_updateNode_frame modKey fnDir hw2
        have hw3' : ∃ w3, findNode g3 dep = some w3 ∧ w3.importers = w2.importers := by
          by_cases hdm : dep = modKey
          · rw [if_pos hdm] at hw3
            exact ⟨fnDir w2, by rw [hg3]; exact hw3, hfnDirImp w2⟩
          · rw [if_neg hdm] at hw3
            exact ⟨w2, by rw [hg3]; exact hw3, rfl⟩
        obtain ⟨w3, hw3g, hw3imp⟩ := hw3'
        have hCS : dep ∈ (fnDir v2).clientImportedModules ∨
            dep ∈ (fnDir v2).ssrImportedModules := by
          by_cases hb : ssr = true
          · refine Or.inr ?_
            have hx : (if ssr then (fnDir v2).ssrImportedModules
                else (fnDir v2).clientImportedModules) =
                (fnDir v2).ssrImportedModules := by
              rw [hb, if_pos rfl]
            rw [← hx, hdirfn]
            exact hdep
          · refine Or.inl ?_
            have hx : (if ssr then (fnDir v2).ssrImportedModules
                else (fnDir v2).clientImportedModules) =
                (fnDir v2).clientImportedModules := by
              rw [if_neg hb]
            rw [← hx, hdirfn]
            exact hdep
        have hwpr : findNode pr.1 dep = some w3 := ppost.skip dep hCS w3 hw3g
        have hw4 : findNode g4 dep = some w3 := hframeA dep w3 hwpr
        have hwg' : findNode g' dep = some (if dep = modKey then
            { w3 with acceptedHmrDeps := dedupKeep ares
                      acceptedHmrExports := aexp
                      importedBindings := bnd } else w3) := by
          rw [← h2]
          exact findNode_updateNode_frame modKey _ hw4
        by_cases hdm : dep = modKey
        · rw [if_pos hdm] at hwg'
          refine ⟨_, hwg', ?_⟩
          show modKey ∈ w3.importers
          rw [hw3imp]
          exact hw2m
        · rw [if_neg hdm] at hwg'
          refine ⟨w3, hwg', ?_⟩
          rw [hw3imp]
          exact hw2m
      · intro dep hdepPrev hnc hns v hv
        have hnc' : dep ∉ (fnDir v2).clientImportedModules := by
          intro hc
          refine hnc ?_
          rw [hmC, hcP]
          exact hc
        have hns' : dep ∉ (fnDir v2).ssrImportedModules := by
          intro hs
          refine hns ?_
          rw [hmS, hsP]
          exact hs
        obtain ⟨w0, hw0⟩ := Option.isSome_iff_exists.mp (hprev dep hdepPrev)
        have hw1 : findNode g1 dep = some (if dep = modKey
            then { w0 with isSelfAccepting := some selfAcc } else w0) := by
          rw [hg1]
          exact findNode_updateNode_frame modKey _ hw0
        obtain ⟨w2, hw2g, _, _, _⟩ := hframe1 dep _ hw1
        have hw3 := findNode_updateNode_frame modKey fnDir hw2g
        have hw3' : ∃ w3, findNode g3 dep = some w3 := by
          by_cases hdm : dep = modKey
          · rw [if_pos hdm] at hw3
            exact ⟨_, by rw [hg3]; exact hw3⟩
          · rw [if_neg hdm] at hw3
            exact ⟨_, by rw [hg3]; exact hw3⟩
        obtain ⟨w3, hw3g⟩ := hw3'
        obtain ⟨wpr, hwprg, _, _, _⟩ := ppost.frame dep w3 hw3g
        have hpruned := ppost.pruned dep hdepPrev hnc' hns' wpr hwprg
        have hw4 : findNode g4 dep = some wpr := hframeA dep wpr hwprg
        have hwg' : findNode g' dep = some (if dep = modKey then
            { wpr with acceptedHmrDeps := dedupKeep ares
                       acceptedHmrExports := aexp
                       importedBindings := bnd } else wpr) := by
          rw [← h2]
          exact findNode_updateNode_frame modKey _ hw4
        have hvimp : v.importers = wpr.importers := by
          by_cases hdm : dep = modKey
          · rw [if_pos hdm] at hwg'
            have hve := Option.some.inj (hv.symm.trans hwg')
            rw [hve]
          · rw [if_neg hdm] at hwg'
            have hve := Option.some.inj (hv.symm.trans hwg')
            rw [hve]
        constructor
        · rw [hvimp]
          exact hpruned.1
        · intro hE
          rw [hvimp] at hE
          have hdep2 : dep ∈ pr.2 := hpruned.2 hE
          have hne : pr.2.isEmpty = false := by
            cases hpr2 : pr.2 with
            | nil =>
              rw [hpr2] at hdep2
              cases hdep2
            | cons a l => rfl
          have ho2 : o = some pr.2 := by
            rw [ho, hne]
            rfl
          rw [ho2]
          exact hdep2

/-- C2 witness: on `gC2`, module 0 replaces its import of node 1 by node 2:
node 2 gains importer 0; node 1 loses importer 0 and, its importer set now
empty, lands in the returned orphan set `some [1]`. -/
theorem C2_witness :
    (∃ v, findNode (gC2.updateModuleInfo 0 [Sum.inr 2] none [] none false false).2 2 =
      some v ∧ 0 ∈ v.importers) ∧
    (∀ v, findNode (gC2.updateModuleInfo 0 [Sum.inr 2] none [] none false false).2 1 =
      some v → 0 ∉ v.importers ∧ (v.importers.isEmpty = true →
        1 ∈ (some [1] : Option (List Nat)).getD [])) := by
  have hwf : GraphWF gC2 := by
    refine ⟨by decide, by decide, ?_, ?_, ?_⟩
    · intro p hp
      exact absurd hp (List.not_mem_nil p)
    · intro p hp
      exact absurd hp (List.not_mem_nil p)
    · intro p hp
      exact absurd hp (List.not_mem_nil p)
  have hpc : PendConsistent gC2 := by
    intro b p hp k hk
    cases b <;> exact absurd hp (List.not_mem_nil p)
  have hm0 : findNode gC2 0 = some c2mod := rfl
  have hrefs : ∀ d, Sum.inr d ∈ ([Sum.inr 2] : List (String ⊕ Nat)) →
      (findNode gC2 d).isSome := by
    intro d hd
    have h2 : d = 2 := by
      have h' := List.mem_singleton.mp hd
      injection h'
    rw [h2]
    rfl
  have hprev : ∀ d ∈ (if false then c2mod.ssrImportedModules
      else c2mod.clientImportedModules), (findNode gC2 d).isSome := by
    intro d hd
    have h1 : d = 1 := by
      simpa [c2mod] using hd
    rw [h1]
    rfl
  have hcall : gC2.updateModuleInfo 0 [Sum.inr 2] none [] none false false =
      (Except.ok (some [1]),
        (gC2.updateModuleInfo 0 [Sum.inr 2] none [] none false false).2) := rfl
  have hmf : findNode (gC2.updateModuleInfo 0 [Sum.inr 2] none [] none false false).2 0 =
      some ((findNode
        (gC2.updateModuleInfo 0 [Sum.inr 2] none [] none false false).2 0).getD
        (ModuleNode.create "" false)) := rfl
  have h := C2_updateModuleInfo_importer_maintenance hwf hpc hm0 hrefs hprev hcall hmf
  refine ⟨?_, ?_⟩
  · exact h.1 2 (by decide)
  · intro v hv
    exact h.2 1 (by decide) (by decide) (by decide) v hv

end ViteGraph
